import Mathlib

/-!
Verification of the `multipyline` text-templating utility
(source: `src/multipyline/__init__.py`).

The embedding works over `List Char`. Line boundaries are modelled as the
single character `'\n'` (the only boundary occurring in the repository's
documented behaviour; Python additionally treats `'\r'` and a few rare
control characters as line breaks in `str.splitlines`, which this model
does not).

The three public operations are
  * `multipyline`       -- dedent-and-trim  (`textwrap.dedent` + `str.strip`),
  * `multipyline_inner` -- indent-and-trim  (`multipyline`, `textwrap.indent`
                           with an always-true predicate, `str.strip`),
  * `multipylinef`      -- template substitution (scan lines for the `"{}"`
                           marker, transform multiline arguments, then
                           `str.format` and `multipyline`).

Python's `str.format` is modelled on the fragment the library uses:
the empty replacement field `"{}"` (auto-numbered), the escapes `"{{"` and
`"}}"`, and the hard errors on any other use of a brace.  A replacement
field with non-empty contents (such as `"{0}"`) is outside the modelled
fragment and is mapped to the error case; every theorem and every concrete
counterexample below stays inside the faithful fragment.
-/

abbrev Str := List Char

/-- The characters `textwrap.dedent` treats as indentation (`[ \t]` in its
regexes). -/
def isPyIndentChar (c : Char) : Bool := c = ' ' || c = '\t'

/-- The ASCII characters for which Python's `str.isspace` holds, i.e. the
characters removed by `str.strip()`. -/
def isPySpace (c : Char) : Bool :=
  c = ' ' || c = '\t' || c = '\n' || c = '\r' || c = Char.ofNat 11 || c = Char.ofNat 12

/-- `text.split('\n')`: split at every newline; always returns at least one
(possibly empty) piece. -/
def splitNL : Str → List Str
  | [] => [[]]
  | c :: cs =>
    if c = '\n' then [] :: splitNL cs
    else
      match splitNL cs with
      | [] => [[c]]
      | l :: ls => (c :: l) :: ls

/-- Inverse of `splitNL`: join pieces with `'\n'`. -/
def joinNL : List Str → Str
  | [] => []
  | [l] => l
  | l :: ls => l ++ '\n' :: joinNL ls

/-- `str.splitlines()` (no keepends), with `'\n'` as the line boundary:
like `splitNL` but the empty piece after a trailing newline is dropped,
and the empty string has no lines. -/
def pySplitlines (s : Str) : List Str :=
  let ls := splitNL s
  if ls.getLast? = some [] then ls.dropLast else ls

/-- `str.splitlines(keepends=True)` with `'\n'` as the line boundary:
each piece keeps its terminating newline. -/
def splitKeep : Str → List Str
  | [] => []
  | c :: cs =>
    if c = '\n' then ['\n'] :: splitKeep cs
    else
      match splitKeep cs with
      | [] => [[c]]
      | l :: ls => (c :: l) :: ls

/-- Longest common prefix of two character lists (the loop `textwrap.dedent`
uses to combine two line indents into a margin). -/
def lcp : Str → Str → Str
  | a :: as, b :: bs => if a = b then a :: lcp as bs else []
  | _, _ => []

/-- The leading run of `[ \t]` characters of a line (the group captured by
`textwrap.dedent`'s `_leading_whitespace_re`). -/
def lineIndent (l : Str) : Str := l.takeWhile isPyIndentChar

/-- `textwrap.dedent`'s first step (`_whitespace_only_re.sub('', text)`):
a line consisting solely of `[ \t]` characters is normalized to an empty
line; other lines are kept. -/
def normLine (l : Str) : Str := if l.all isPyIndentChar then [] else l

/-- The common margin `textwrap.dedent` computes: the fold of `lcp` over the
indents of all lines that contain a character other than space and tab. -/
def marginOf (lines : List Str) : Str :=
  match (lines.filter (fun l => !(l.all isPyIndentChar))).map lineIndent with
  | [] => []
  | i :: is => is.foldl lcp i

/-- The per-line effect of `re.sub(r'(?m)^' + margin, '', text)`: remove
`m` from the front of a line exactly when the line starts with `m`. -/
def dedentLine (m : Str) (l : Str) : Str :=
  if m.isPrefixOf l then l.drop m.length else l

/-- `textwrap.dedent`: normalize whitespace-only lines, compute the common
margin of the remaining lines, and strip it from the front of every line
that carries it. -/
def dedent (s : Str) : Str :=
  let ls := (splitNL s).map normLine
  joinNL (ls.map (dedentLine (marginOf ls)))

/-- Remove the trailing run of characters satisfying `q` (the right half of
`str.strip`). -/
def dropTrail (q : Char → Bool) (l : Str) : Str :=
  (l.reverse.dropWhile q).reverse

/-- `str.strip()`: remove leading and trailing whitespace characters. -/
def pyStrip (s : Str) : Str := dropTrail isPySpace (s.dropWhile isPySpace)

/-- `multipyline(s)` (source lines 45-46): `textwrap.dedent(s)` then
`s.strip()`. -/
def multipyline (s : Str) : Str := pyStrip (dedent s)

/-- `textwrap.indent(text, prefix, lambda _: True)`: prepend the given
string to every line of `text.splitlines(True)`, blank lines included. -/
def pyIndent (s : Str) (p : Str) : Str :=
  ((splitKeep s).map (fun l => p ++ l)).flatten

/-- `multipyline_inner(s, prefix)` (source lines 95-97): `multipyline`,
then `textwrap.indent` with an always-true predicate, then `str.strip()`. -/
def multipyline_inner (s : Str) (p : Str) : Str :=
  pyStrip (pyIndent (multipyline s) p)

/-- `TEMPLATE in line` for `TEMPLATE = "{}"`: the line has the two-character
marker as a substring. -/
def containsTmpl : Str → Bool
  | [] => false
  | [_] => false
  | c1 :: c2 :: rest => (c1 = '\x7b' && c2 = '\x7d') || containsTmpl (c2 :: rest)

/-- `line.count("{}")`: number of non-overlapping occurrences of the marker,
scanning from the left. -/
def countTmpl : Str → Nat
  | [] => 0
  | [_] => 0
  | c1 :: c2 :: rest =>
    if c1 = '\x7b' ∧ c2 = '\x7d' then countTmpl rest + 1 else countTmpl (c2 :: rest)

/-- `line.find("{}")`: index of the leftmost occurrence of the marker. -/
def findTmpl : Str → Option Nat
  | [] => none
  | [_] => none
  | c1 :: c2 :: rest =>
    if c1 = '\x7b' ∧ c2 = '\x7d' then some 0 else (findTmpl (c2 :: rest)).map (· + 1)

/-- `line.startswith("{}")`. -/
def tmplStarts : Str → Bool
  | c1 :: c2 :: _ => c1 = '\x7b' && c2 = '\x7d'
  | _ => false

/-- The per-argument transformation of `multipylinef` (source lines
151-157): when the argument has more than one line and the line, dedented
in isolation, begins with the marker, apply `multipyline_inner` with the
text preceding the marker as the prefix; otherwise keep the argument. -/
def transformArg (line a : Str) : Str :=
  if 1 < (pySplitlines a).length ∧ tmplStarts (dedent line) = true then
    multipyline_inner a (line.take ((findTmpl line).getD 0))
  else a

/-- The two failure modes of the Python code: `ValueError` (raised
explicitly for a line with several markers, and by `str.format` for a
stray brace) and `IndexError` (raised by `args[arg_counter]` and by
`str.format` when arguments run out). -/
inductive PyError where
  | valueError : PyError
  | indexError : PyError
deriving DecidableEq, Repr

/-- The scanning loop of `multipylinef` (source lines 138-160): walk the
template's lines; skip lines without the marker; fail on a line with more
than one marker; otherwise fetch the next argument, transform it, and store
it at the cursor position of the pre-sized result list. -/
def scanLoop (args : List Str) : List Str → Nat → List Str → Except PyError (List Str)
  | [], _, acc => .ok acc
  | line :: rest, k, acc =>
    if containsTmpl line = false then scanLoop args rest k acc
    else if 1 < countTmpl line then .error .valueError
    else
      match args[k]? with
      | none => .error .indexError
      | some a => scanLoop args rest (k + 1) (acc.set k (transformArg line a))

/-- `s.format(*args)` restricted to the fragment the library uses: literal
characters, the escapes `"{{"` and `"}}"`, and the empty auto-numbered
field `"{}"` which consumes the next argument (IndexError when exhausted).
A brace used in any other way is an error; Python accepts a replacement
field with non-empty contents such as `"{0}"`, which is outside this
fragment. -/
def pyFormatCore : Str → List Str → Nat → Except PyError Str
  | [], _, _ => .ok []
  | [c], args, k =>
    if c = '\x7b' ∨ c = '\x7d' then .error .valueError
    else
      match pyFormatCore [] args k with
      | .error e => .error e
      | .ok t => .ok (c :: t)
  | c1 :: c2 :: rest, args, k =>
    if c1 = '\x7b' then
      if c2 = '\x7b' then
        match pyFormatCore rest args k with
        | .error e => .error e
        | .ok t => .ok ('\x7b' :: t)
      else if c2 = '\x7d' then
        match args[k]? with
        | none => .error .indexError
        | some a =>
          match pyFormatCore rest args (k + 1) with
          | .error e => .error e
          | .ok t => .ok (a ++ t)
      else .error .valueError
    else if c1 = '\x7d' then
      if c2 = '\x7d' then
        match pyFormatCore rest args k with
        | .error e => .error e
        | .ok t => .ok ('\x7d' :: t)
      else .error .valueError
    else
      match pyFormatCore (c2 :: rest) args k with
      | .error e => .error e
      | .ok t => .ok (c1 :: t)

/-- `s.format(*args)` from the start of the string with auto-numbering
starting at argument 0. -/
def pyFormat (s : Str) (args : List Str) : Except PyError Str :=
  pyFormatCore s args 0

/-- `multipylinef(s, *args)` (source lines 136-165): scan the lines and
build the transformed argument list, substitute with `str.format`, and
`multipyline` the result. -/
def multipylinef (s : Str) (args : List Str) : Except PyError Str :=
  match scanLoop args (pySplitlines s) 0 (List.replicate args.length []) with
  | .error e => .error e
  | .ok fargs =>
    match pyFormat s fargs with
    | .error e => .error e
    | .ok t => .ok (multipyline t)

/-- A string whose braces occur only as complete `"{}"` markers. -/
def wfTmpl : Str → Bool
  | [] => true
  | [c] => !(c = '\x7b' || c = '\x7d')
  | c1 :: c2 :: rest =>
    if c1 = '\x7b' then (c2 = '\x7d') && wfTmpl rest
    else if c1 = '\x7d' then false
    else wfTmpl (c2 :: rest)

/-- A string `str.format` accepts: braces occur only as the field `"{}"`
or as the escapes `"{{"` and `"}}"`. -/
def wfFmt : Str → Bool
  | [] => true
  | [c] => !(c = '\x7b' || c = '\x7d')
  | c1 :: c2 :: rest =>
    if c1 = '\x7b' then (c2 = '\x7b' || c2 = '\x7d') && wfFmt rest
    else if c1 = '\x7d' then (c2 = '\x7d') && wfFmt rest
    else wfFmt (c2 :: rest)

/-- Number of replacement fields `str.format` parses in a string (escapes
consume no argument). -/
def fieldCount : Str → Nat
  | [] => 0
  | [_] => 0
  | c1 :: c2 :: rest =>
    if c1 = '\x7b' ∧ c2 = '\x7d' then fieldCount rest + 1
    else if (c1 = '\x7b' ∧ c2 = '\x7b') ∨ (c1 = '\x7d' ∧ c2 = '\x7d') then fieldCount rest
    else fieldCount (c2 :: rest)

/-- Replace the leftmost `"{}"` marker of a line by the given string. -/
def subst1 (ℓ a : Str) : Str :=
  match findTmpl ℓ with
  | some i => ℓ.take i ++ a ++ ℓ.drop (i + 2)
  | none => ℓ

/-- The marker-bearing lines of a template, in order. -/
def markerLines (s : Str) : List Str :=
  (pySplitlines s).filter containsTmpl

/-- Overwrite consecutive positions of a list starting at index `k`
(the net effect of the scanning loop's `formatted_args[arg_counter] = ...`
assignments). -/
def setFrom (acc : List Str) (k : Nat) : List Str → List Str
  | [] => acc
  | v :: vs => setFrom (acc.set k v) (k + 1) vs

/-- A string without brace characters (hence without placeholder markers
and untouched by `str.format`). -/
def braceFree (s : Str) : Bool := s.all (fun c => !(c = '\x7b' || c = '\x7d'))

/-- A line is blank when all its characters are Python whitespace. -/
def blankL (l : Str) : Bool := l.all isPySpace

/-- Apply a function to the last element of a list (proof infrastructure
for relating `splitNL` and `List.reverse`). -/
def modLast (f : Str → Str) : List Str → List Str
  | [] => []
  | [x] => [f x]
  | x :: xs => x :: modLast f xs

/-- Line-level effect of the leading half of `str.strip` on a joined line
list: drop the blank lines, then the leading whitespace of the first
surviving line. -/
def stripLeadLines (ls : List Str) : List Str :=
  match ls.dropWhile blankL with
  | [] => []
  | l :: rest => l.dropWhile isPySpace :: rest

instance : DecidableEq (Except PyError Str) := fun
  | .error a, .error b =>
    match decEq a b with
    | isTrue h => isTrue (by rw [h])
    | isFalse h => isFalse (fun hh => by cases hh; exact h rfl)
  | .error _, .ok _ => isFalse (fun hh => by cases hh)
  | .ok _, .error _ => isFalse (fun hh => by cases hh)
  | .ok a, .ok b =>
    match decEq a b with
    | isTrue h => isTrue (by rw [h])
    | isFalse h => isFalse (fun hh => by cases hh; exact h rfl)

-- Concrete strings used by witnesses and counterexamples.

/-- Template of the spec's indentation example: `"    def fun():\n        {}"`. -/
def tmplC2 : Str := ("    def fun():\n        \x7b\x7d").toList

/-- Two-line argument `"a\nb"`. -/
def argC2 : Str := ("a\nb").toList

/-- Expected result `"def fun():\n    a\n    b"`. -/
def outC2 : Str := ("def fun():\n    a\n    b").toList

/-! ### Basic lemmas about `splitNL` and `joinNL` -/

theorem splitNL_ne_nil (s : Str) : splitNL s ≠ [] := by
  cases s with
  | nil => simp [splitNL]
  | cons c cs =>
    simp only [splitNL]
    split
    · simp
    · split <;> simp

theorem splitNL_cons_of_ne {c : Char} (h : c ≠ '\n') (cs : Str) :
    ∃ l ls, splitNL cs = l :: ls ∧ splitNL (c :: cs) = (c :: l) :: ls := by
  obtain ⟨l, ls, hls⟩ := List.exists_cons_of_ne_nil (splitNL_ne_nil cs)
  refine ⟨l, ls, hls, ?_⟩
  simp only [splitNL, if_neg h, hls]

theorem splitNL_cons_nl (cs : Str) : splitNL ('\n' :: cs) = [] :: splitNL cs := by
  simp [splitNL]

theorem joinNL_cons {ls : List Str} (h : ls ≠ []) (l : Str) :
    joinNL (l :: ls) = l ++ '\n' :: joinNL ls := by
  cases ls with
  | nil => exact absurd rfl h
  | cons a as => rfl

theorem joinNL_splitNL (s : Str) : joinNL (splitNL s) = s := by
  induction s with
  | nil => rfl
  | cons c cs ih =>
    by_cases h : c = '\n'
    · subst h
      rw [splitNL_cons_nl, joinNL_cons (splitNL_ne_nil cs), ih]
      rfl
    · obtain ⟨l, ls, h1, h2⟩ := splitNL_cons_of_ne h cs
      rw [h2]
      cases ls with
      | nil =>
        have : joinNL [l] = c :: cs → joinNL [c :: l] = c :: c :: cs := by
          intro hh; simp [joinNL] at hh ⊢; exact hh
        simp only [joinNL]
        rw [h1] at ih
        simpa [joinNL] using congrArg (c :: ·) ih
      | cons b bs =>
        rw [joinNL_cons (by simp), List.cons_append]
        rw [h1, joinNL_cons (by simp)] at ih
        rw [ih]

theorem splitNL_noNL {s : Str} {l : Str} (hl : l ∈ splitNL s) : '\n' ∉ l := by
  induction s generalizing l with
  | nil =>
    simp only [splitNL, List.mem_singleton] at hl
    subst hl; simp
  | cons c cs ih =>
    by_cases h : c = '\n'
    · subst h; rw [splitNL_cons_nl] at hl
      rcases List.mem_cons.mp hl with hl | hl
      · subst hl; simp
      · exact ih hl
    · obtain ⟨a, as, h1, h2⟩ := splitNL_cons_of_ne h cs
      rw [h2] at hl
      rcases List.mem_cons.mp hl with hl | hl
      · subst hl
        intro hmem
        rcases List.mem_cons.mp hmem with hmem | hmem
        · exact h hmem.symm
        · exact ih (by rw [h1]; exact List.mem_cons_self a as) hmem
      · exact ih (by rw [h1]; exact List.mem_cons_of_mem a hl)

theorem splitNL_of_noNL {l : Str} (h : '\n' ∉ l) : splitNL l = [l] := by
  induction l with
  | nil => rfl
  | cons c cs ih =>
    have hc : c ≠ '\n' := fun hh => h (by simp [hh])
    obtain ⟨a, as, h1, h2⟩ := splitNL_cons_of_ne hc cs
    have := ih (fun hm => h (List.mem_cons_of_mem c hm))
    rw [this] at h1
    cases h1
    exact h2

theorem splitNL_append_nl {a : Str} (ha : '\n' ∉ a) (b : Str) :
    splitNL (a ++ '\n' :: b) = a :: splitNL b := by
  induction a with
  | nil => simp [splitNL_cons_nl]
  | cons c cs ih =>
    have hc : c ≠ '\n' := fun hh => ha (by simp [hh])
    obtain ⟨l, ls, h1, h2⟩ := splitNL_cons_of_ne hc (cs ++ '\n' :: b)
    rw [List.cons_append, h2]
    rw [ih (fun hm => ha (List.mem_cons_of_mem c hm))] at h1
    cases h1
    rfl

theorem splitNL_joinNL {ls : List Str} (h : ls ≠ []) (hnl : ∀ l ∈ ls, '\n' ∉ l) :
    splitNL (joinNL ls) = ls := by
  induction ls with
  | nil => exact absurd rfl h
  | cons l rest ih =>
    cases rest with
    | nil => exact splitNL_of_noNL (hnl l (by simp))
    | cons b bs =>
      rw [joinNL_cons (by simp), splitNL_append_nl (hnl l (by simp))]
      rw [ih (by simp) (fun x hx => hnl x (List.mem_cons_of_mem l hx))]

/-! ### Append and reverse structure of `splitNL` and `joinNL` -/

theorem modLast_cons {xs : List Str} (h : xs ≠ []) (f : Str → Str) (x : Str) :
    modLast f (x :: xs) = x :: modLast f xs := by
  cases xs with
  | nil => exact absurd rfl h
  | cons a as => rfl

theorem modLast_append_single (f : Str → Str) (xs : List Str) (x : Str) :
    modLast f (xs ++ [x]) = xs ++ [f x] := by
  induction xs with
  | nil => rfl
  | cons a as ih =>
    rw [List.cons_append, modLast_cons (by simp) f a, ih]
    rfl

theorem joinNL_append_single {xs : List Str} (h : xs ≠ []) (y : Str) :
    joinNL (xs ++ [y]) = joinNL xs ++ '\n' :: y := by
  induction xs with
  | nil => exact absurd rfl h
  | cons a as ih =>
    cases as with
    | nil => rfl
    | cons b bs =>
      rw [List.cons_append, joinNL_cons (by simp : b :: bs ++ [y] ≠ []) a, ih (by simp),
        joinNL_cons (by simp : (b :: bs : List Str) ≠ []) a]
      simp

theorem joinNL_reverse (ls : List Str) :
    (joinNL ls).reverse = joinNL ((ls.reverse).map List.reverse) := by
  induction ls with
  | nil => rfl
  | cons l rest ih =>
    cases rest with
    | nil => rfl
    | cons b bs =>
      rw [joinNL_cons (by simp : (b :: bs : List Str) ≠ []) l, List.reverse_append,
        List.reverse_cons '\n' (joinNL (b :: bs)), ih]
      rw [List.reverse_cons l (b :: bs), List.map_append, List.map_cons, List.map_nil]
      rw [joinNL_append_single (by simp : ((b :: bs).reverse.map List.reverse : List Str) ≠ [])]
      simp

theorem splitNL_append_last_nl (y : Str) :
    splitNL (y ++ ['\n']) = splitNL y ++ [[]] := by
  induction y with
  | nil => rfl
  | cons d y' ih =>
    by_cases hd : d = '\n'
    · subst hd
      rw [List.cons_append, splitNL_cons_nl, splitNL_cons_nl, ih]
      rfl
    · obtain ⟨l, ls, h1, h2⟩ := splitNL_cons_of_ne hd (y' ++ ['\n'])
      obtain ⟨l', ls', h1', h2'⟩ := splitNL_cons_of_ne hd y'
      rw [List.cons_append, h2, h2']
      rw [ih, h1'] at h1
      cases ls' with
      | nil => simp_all
      | cons b bs =>
        rw [List.cons_append] at h1
        cases h1
        rfl

theorem splitNL_append_last_ch {c : Char} (hc : c ≠ '\n') (y : Str) :
    splitNL (y ++ [c]) = modLast (· ++ [c]) (splitNL y) := by
  induction y with
  | nil =>
    obtain ⟨l, ls, h1, h2⟩ := splitNL_cons_of_ne hc ([] : Str)
    simp only [splitNL] at h1
    cases h1
    simpa using h2
  | cons d y' ih =>
    by_cases hd : d = '\n'
    · subst hd
      rw [List.cons_append, splitNL_cons_nl, splitNL_cons_nl, ih]
      rw [modLast_cons (by simpa using splitNL_ne_nil y')]
    · obtain ⟨l, ls, h1, h2⟩ := splitNL_cons_of_ne hd (y' ++ [c])
      obtain ⟨l', ls', h1', h2'⟩ := splitNL_cons_of_ne hd y'
      rw [List.cons_append, h2, h2']
      rw [ih, h1'] at h1
      cases ls' with
      | nil =>
        simp only [modLast] at h1
        cases h1
        rfl
      | cons b bs =>
        rw [modLast_cons (by simp : (b :: bs : List Str) ≠ [])] at h1
        cases h1
        rw [modLast_cons (by simp : (b :: bs : List Str) ≠ []) (· ++ [c]) (d :: l)]

theorem splitNL_reverse (s : Str) :
    splitNL s.reverse = ((splitNL s).map List.reverse).reverse := by
  induction s with
  | nil => rfl
  | cons c cs ih =>
    rw [List.reverse_cons]
    by_cases hc : c = '\n'
    · subst hc
      rw [splitNL_append_last_nl, ih, splitNL_cons_nl]
      simp
    · obtain ⟨l, ls, h1, h2⟩ := splitNL_cons_of_ne hc cs
      rw [splitNL_append_last_ch hc, ih, h1, h2]
      rw [List.map_cons, List.reverse_cons, modLast_append_single]
      simp

/-! ### Lemmas about `dropWhile`, `dropTrail` and `pyStrip` -/

theorem dropWhile_append_not {q : Char → Bool} {b : Str} {c0 : Char}
    (hb : b.head? = some c0) (hq : q c0 = false) (a : Str) :
    (a ++ b).dropWhile q = a.dropWhile q ++ b := by
  induction a with
  | nil =>
    cases b with
    | nil => simp at hb
    | cons d t =>
      simp only [List.head?_cons, Option.some.injEq] at hb
      subst hb
      have hd : ¬ q d = true := by simp [hq]
      simp [List.dropWhile_cons_of_neg hd]
  | cons c a' ih =>
    by_cases hc : q c = true
    · rw [List.cons_append, List.dropWhile_cons_of_pos hc, List.dropWhile_cons_of_pos hc, ih]
    · rw [List.cons_append, List.dropWhile_cons_of_neg (by simp [hc]),
        List.dropWhile_cons_of_neg (by simp [hc]), List.cons_append]

theorem dropTrail_nil (q : Char → Bool) : dropTrail q [] = [] := rfl

theorem dropTrail_eq_self {q : Char → Bool} {l : Str}
    (h : ∀ c ∈ l.getLast?, q c = false) : dropTrail q l = l := by
  unfold dropTrail
  cases hr : l.reverse with
  | nil =>
    have : l = [] := by simpa using congrArg List.reverse hr
    subst this; rfl
  | cons d t =>
    have hd : l.getLast? = some d := by
      rw [← List.head?_reverse, hr, List.head?_cons]
    rw [List.dropWhile_cons_of_neg (by simp [h d hd])]
    rw [← hr, List.reverse_reverse]

theorem dropTrail_getLast_not (q : Char → Bool) (l : Str) :
    ∀ c ∈ (dropTrail q l).getLast?, q c = false := by
  intro c hc
  unfold dropTrail at hc
  rw [List.getLast?_reverse] at hc
  have := List.head?_dropWhile_not q l.reverse
  rw [hc] at this
  exact this

theorem dropTrail_pref (q : Char → Bool) (l : Str) : dropTrail q l <+: l := by
  have hs : l.reverse.dropWhile q <:+ l.reverse := List.dropWhile_suffix q
  unfold dropTrail
  rw [← List.reverse_reverse l]
  exact List.reverse_prefix.mpr (by rw [List.reverse_reverse]; exact hs)

theorem head?_of_pref {p w : Str} (h : p <+: w) (hp : p ≠ []) : w.head? = p.head? := by
  obtain ⟨z, rfl⟩ := h
  cases p with
  | nil => exact absurd rfl hp
  | cons c t => simp

theorem pyStrip_head_not (s : Str) : ∀ c ∈ (pyStrip s).head?, isPySpace c = false := by
  intro c hc
  unfold pyStrip at hc
  by_cases hn : dropTrail isPySpace (s.dropWhile isPySpace) = []
  · rw [hn] at hc; simp at hc
  · have hpref := dropTrail_pref isPySpace (s.dropWhile isPySpace)
    have := head?_of_pref hpref hn
    rw [← this] at hc
    have hmain := List.head?_dropWhile_not isPySpace s
    rw [hc] at hmain
    exact hmain

theorem pyStrip_getLast_not (s : Str) :
    ∀ c ∈ (pyStrip s).getLast?, isPySpace c = false :=
  dropTrail_getLast_not isPySpace (s.dropWhile isPySpace)

theorem dropWhile_eq_self_of_head {q : Char → Bool} {l : Str}
    (h : ∀ c ∈ l.head?, q c = false) : l.dropWhile q = l := by
  cases l with
  | nil => rfl
  | cons c t => exact List.dropWhile_cons_of_neg (by simp [h c (by simp)])

theorem pyStrip_eq_self {s : Str} (h1 : ∀ c ∈ s.head?, isPySpace c = false)
    (h2 : ∀ c ∈ s.getLast?, isPySpace c = false) : pyStrip s = s := by
  unfold pyStrip
  rw [dropWhile_eq_self_of_head h1, dropTrail_eq_self h2]

/-! ### Membership lemmas -/

theorem mem_joinNL_of {ls : List Str} {l : Str} {c : Char} (hl : l ∈ ls) (hc : c ∈ l) :
    c ∈ joinNL ls := by
  induction ls with
  | nil => simp at hl
  | cons a as ih =>
    rcases List.mem_cons.mp hl with h | h
    · subst h
      cases as with
      | nil => exact hc
      | cons b bs =>
        rw [joinNL_cons (by simp : (b :: bs : List Str) ≠ []) l]
        exact List.mem_append_left _ hc
    · cases as with
      | nil => simp at h
      | cons b bs =>
        rw [joinNL_cons (by simp) a]
        exact List.mem_append_right _ (List.mem_cons_of_mem _ (ih h))

theorem mem_of_mem_line {s l : Str} (hl : l ∈ splitNL s) {c : Char} (hc : c ∈ l) : c ∈ s :=
  joinNL_splitNL s ▸ mem_joinNL_of hl hc

/-! ### Margin lemmas -/

theorem lcp_nil (b : Str) : lcp [] b = [] := by cases b <;> rfl

theorem foldl_lcp_nil (xs : List Str) : xs.foldl lcp [] = [] := by
  induction xs with
  | nil => rfl
  | cons x xs ih => rw [List.foldl_cons, lcp_nil, ih]

theorem lcp_pref_left (a b : Str) : lcp a b <+: a := by
  induction a generalizing b with
  | nil => rw [lcp_nil]
  | cons c a' ih =>
    cases b with
    | nil => exact List.nil_prefix
    | cons d b' =>
      show (if c = d then c :: lcp a' b' else []) <+: c :: a'
      split
      · exact List.prefix_cons_inj c |>.mpr (ih b')
      · exact List.nil_prefix

theorem foldl_lcp_pref (xs : List Str) (acc : Str) : xs.foldl lcp acc <+: acc := by
  induction xs generalizing acc with
  | nil => exact List.prefix_refl acc
  | cons x xs ih => exact (ih (lcp acc x)).trans (lcp_pref_left acc x)

theorem all_of_pref {a b : Str} (h : a <+: b) {q : Char → Bool} (hb : b.all q = true) :
    a.all q = true := by
  rw [List.all_eq_true] at hb ⊢
  exact fun x hx => hb x (h.subset hx)

theorem takeWhile_all (q : Char → Bool) (l : Str) : (l.takeWhile q).all q = true := by
  induction l with
  | nil => rfl
  | cons c t ih =>
    by_cases hc : q c = true
    · rw [List.takeWhile_cons_of_pos hc]
      simp [hc, ih]
    · rw [List.takeWhile_cons_of_neg (by simp [hc])]
      rfl

theorem marginOf_all (ls : List Str) : (marginOf ls).all isPyIndentChar = true := by
  unfold marginOf
  cases hm : (ls.filter (fun l => !(l.all isPyIndentChar))).map lineIndent with
  | nil => rfl
  | cons i is =>
    have hi : i ∈ (ls.filter (fun l => !(l.all isPyIndentChar))).map lineIndent := by
      rw [hm]; exact List.mem_cons_self i is
    rcases List.mem_map.mp hi with ⟨l, _, rfl⟩
    exact all_of_pref (foldl_lcp_pref is (lineIndent l)) (takeWhile_all isPyIndentChar l)

/-! ### `dedent` structure lemmas -/

theorem map_id_of_mem {f : Str → Str} {ls : List Str} (h : ∀ l ∈ ls, f l = l) :
    ls.map f = ls := by
  induction ls with
  | nil => rfl
  | cons a as ih =>
    rw [List.map_cons, h a (by simp), ih (fun l hl => h l (List.mem_cons_of_mem a hl))]

theorem indent_implies_ws {c : Char} (h : isPyIndentChar c = true) : isPySpace c = true := by
  simp only [isPyIndentChar, Bool.or_eq_true, decide_eq_true_eq] at h
  rcases h with h | h <;> simp [isPySpace, h]

theorem normLine_noNL {l : Str} (h : '\n' ∉ l) : '\n' ∉ normLine l := by
  unfold normLine
  split
  · simp
  · exact h

theorem dedentLine_noNL {m l : Str} (h : '\n' ∉ l) : '\n' ∉ dedentLine m l := by
  unfold dedentLine
  split
  · exact fun hx => h (List.drop_subset _ _ hx)
  · exact h

theorem dedentLine_nil (m : Str) : dedentLine m [] = [] := by
  unfold dedentLine
  split
  · simp
  · rfl

theorem dedentLine_keeps_content {m l : Str} (hm : m.all isPyIndentChar = true)
    (hl : ¬ l.all isPyIndentChar = true) : ¬ (dedentLine m l).all isPyIndentChar = true := by
  unfold dedentLine
  split
  · rename_i hp
    rcases List.isPrefixOf_iff_prefix.mp hp with ⟨z, rfl⟩
    rw [List.drop_left]
    intro hz
    exact hl (by rw [List.all_append, hm, hz]; rfl)
  · exact hl

theorem dedent_lines (s : Str) :
    splitNL (dedent s) =
      ((splitNL s).map normLine).map
        (dedentLine (marginOf ((splitNL s).map normLine))) := by
  apply splitNL_joinNL
  · simp [splitNL_ne_nil s]
  · intro l hl
    rcases List.mem_map.mp hl with ⟨l1, hl1, rfl⟩
    rcases List.mem_map.mp hl1 with ⟨l0, hl0, rfl⟩
    exact dedentLine_noNL (normLine_noNL (splitNL_noNL hl0))

theorem dedent_lines_content (s : Str) :
    ∀ l ∈ splitNL (dedent s), l.all isPyIndentChar = true → l = [] := by
  intro l hl hall
  rw [dedent_lines s] at hl
  rcases List.mem_map.mp hl with ⟨l1, hl1, rfl⟩
  rcases List.mem_map.mp hl1 with ⟨l0, _, rfl⟩
  by_cases h0 : l0.all isPyIndentChar = true
  · rw [normLine, if_pos h0, dedentLine_nil]
  · rw [normLine, if_neg h0] at hall ⊢
    exact absurd hall (dedentLine_keeps_content (marginOf_all _) h0)

theorem nl_is_ws : isPySpace '\n' = true := by decide

theorem dedent_eq_self {t : Str}
    (hcontent : ∀ l ∈ splitNL t, l.all isPyIndentChar = true → l = [])
    (hhead : ∀ c ∈ t.head?, isPySpace c = false) : dedent t = t := by
  have hnorm : (splitNL t).map normLine = splitNL t := by
    apply map_id_of_mem
    intro l hl
    unfold normLine
    split
    · exact (hcontent l hl (by assumption)).symm
    · rfl
  have hmargin : marginOf (splitNL t) = [] := by
    cases t with
    | nil => rfl
    | cons c cs =>
      have hc : isPySpace c = false := hhead c (by simp)
      have hcnl : c ≠ '\n' := fun hh => by rw [hh, nl_is_ws] at hc; exact absurd hc (by simp)
      have hcind : isPyIndentChar c = false := by
        cases hi : isPyIndentChar c
        · rfl
        · rw [indent_implies_ws hi] at hc; exact absurd hc (by simp)
      obtain ⟨l, ls, _, h2⟩ := splitNL_cons_of_ne hcnl cs
      rw [h2]
      unfold marginOf
      have hfil : ((c :: l) :: ls).filter (fun l => !(l.all isPyIndentChar))
          = (c :: l) :: ls.filter (fun l => !(l.all isPyIndentChar)) := by
        rw [List.filter_cons_of_pos (by simp [hcind])]
      rw [hfil, List.map_cons]
      have : lineIndent (c :: l) = [] := by
        unfold lineIndent
        exact List.takeWhile_cons_of_neg (by simp [hcind])
      rw [this]
      exact foldl_lcp_nil _
  have hdef : dedent t
      = joinNL (((splitNL t).map normLine).map
          (dedentLine (marginOf ((splitNL t).map normLine)))) := rfl
  rw [hdef, hnorm, hmargin]
  have hded : (splitNL t).map (dedentLine []) = splitNL t := by
    apply map_id_of_mem
    intro l _
    unfold dedentLine
    rw [if_pos (by cases l <;> rfl)]
    rfl
  rw [hded, joinNL_splitNL]

/-! ### Transfer of the content-line property through `pyStrip` -/

theorem tail_lines_dropWhile {q : Char → Bool} {cs : Str} {l : Str}
    (hl : l ∈ (splitNL (cs.dropWhile q)).tail) : l ∈ (splitNL cs).tail := by
  induction cs with
  | nil => simp [splitNL] at hl
  | cons c cs' ih =>
    by_cases hq : q c = true
    · rw [List.dropWhile_cons_of_pos hq] at hl
      have hmem := ih hl
      by_cases hc : c = '\n'
      · subst hc
        rw [splitNL_cons_nl]
        exact List.mem_of_mem_tail hmem
      · obtain ⟨a, as, h1, h2⟩ := splitNL_cons_of_ne hc cs'
        rw [h2]
        rw [h1] at hmem
        exact hmem
    · rwa [List.dropWhile_cons_of_neg (by simp [hq])] at hl

theorem content_lines_dropWhile {cs : Str}
    (h : ∀ l ∈ (splitNL cs).tail, l.all isPyIndentChar = true → l = []) :
    ∀ l ∈ splitNL (cs.dropWhile isPySpace), l.all isPyIndentChar = true → l = [] := by
  intro l hl hall
  cases hw : cs.dropWhile isPySpace with
  | nil =>
    rw [hw] at hl
    simpa [splitNL] using hl
  | cons c w' =>
    have hc : isPySpace c = false := by
      have := List.head?_dropWhile_not isPySpace cs
      rw [hw, List.head?_cons] at this
      exact this
    have hcnl : c ≠ '\n' := fun hh => by rw [hh, nl_is_ws] at hc; exact absurd hc (by simp)
    obtain ⟨a, as, h1, h2⟩ := splitNL_cons_of_ne hcnl w'
    rw [hw, h2] at hl
    rcases List.mem_cons.mp hl with h3 | h3
    · subst h3
      rw [List.all_cons] at hall
      have : isPyIndentChar c = true := by
        rcases Bool.and_eq_true _ _ |>.mp hall with ⟨h4, _⟩
        exact h4
      rw [indent_implies_ws this] at hc
      exact absurd hc (by simp)
    · apply h l _ hall
      refine @tail_lines_dropWhile isPySpace cs l ?_
      rw [hw, h2]
      exact h3

theorem content_lines_rev {x : Str}
    (h : ∀ l ∈ splitNL x, l.all isPyIndentChar = true → l = []) :
    ∀ l ∈ splitNL x.reverse, l.all isPyIndentChar = true → l = [] := by
  intro l hl hall
  rw [splitNL_reverse] at hl
  rcases List.mem_map.mp (List.mem_reverse.mp hl) with ⟨l0, hl0, rfl⟩
  rw [List.all_reverse] at hall
  rw [h l0 hl0 hall]
  rfl

theorem content_lines_pyStrip {v : Str}
    (h : ∀ l ∈ splitNL v, l.all isPyIndentChar = true → l = []) :
    ∀ l ∈ splitNL (pyStrip v), l.all isPyIndentChar = true → l = [] := by
  have h1 := content_lines_dropWhile (fun l hl => h l (List.mem_of_mem_tail hl))
  have h2 := content_lines_rev h1
  have h3 := content_lines_dropWhile (fun l hl => h2 l (List.mem_of_mem_tail hl))
  have h4 := content_lines_rev h3
  exact h4

/-! ### C7: idempotence of dedent-and-trim -/

/-- C7.  Dedent-and-trim (`multipyline`) is idempotent: applying it to its
own output returns that output unchanged. -/
theorem multipyline_idempotent (s : Str) : multipyline (multipyline s) = multipyline s := by
  have hP : ∀ l ∈ splitNL (multipyline s), l.all isPyIndentChar = true → l = [] :=
    content_lines_pyStrip (dedent_lines_content s)
  have hhead := pyStrip_head_not (dedent s)
  have hlast := pyStrip_getLast_not (dedent s)
  show pyStrip (dedent (multipyline s)) = multipyline s
  rw [dedent_eq_self hP hhead]
  exact pyStrip_eq_self hhead hlast

/-! ### C8: whitespace-only inputs -/

theorem mem_joinNL {ls : List Str} {c : Char} (hc : c ∈ joinNL ls) :
    c = '\n' ∨ ∃ l ∈ ls, c ∈ l := by
  induction ls with
  | nil => simp [joinNL] at hc
  | cons a as ih =>
    cases as with
    | nil => exact Or.inr ⟨a, by simp, hc⟩
    | cons b bs =>
      rw [joinNL_cons (by simp : (b :: bs : List Str) ≠ []) a] at hc
      rcases List.mem_append.mp hc with h | h
      · exact Or.inr ⟨a, by simp, h⟩
      · rcases List.mem_cons.mp h with h | h
        · exact Or.inl h
        · rcases ih h with h | ⟨l, hl, hcl⟩
          · exact Or.inl h
          · exact Or.inr ⟨l, List.mem_cons_of_mem a hl, hcl⟩

theorem mem_of_normLine {l : Str} {c : Char} (hc : c ∈ normLine l) : c ∈ l := by
  unfold normLine at hc
  split at hc
  · simp at hc
  · exact hc

theorem mem_of_dedentLine {m l : Str} {c : Char} (hc : c ∈ dedentLine m l) : c ∈ l := by
  unfold dedentLine at hc
  split at hc
  · exact List.drop_subset _ _ hc
  · exact hc

theorem mem_dedent {s : Str} {c : Char} (hc : c ∈ dedent s) : c = '\n' ∨ c ∈ s := by
  rcases mem_joinNL hc with h | ⟨l, hl, hcl⟩
  · exact Or.inl h
  · rcases List.mem_map.mp hl with ⟨l1, hl1, rfl⟩
    rcases List.mem_map.mp hl1 with ⟨l0, hl0, rfl⟩
    exact Or.inr (mem_of_mem_line hl0 (mem_of_normLine (mem_of_dedentLine hcl)))

theorem dedent_all_ws {s : Str} (h : s.all isPySpace = true) :
    (dedent s).all isPySpace = true := by
  rw [List.all_eq_true] at h ⊢
  intro c hc
  rcases mem_dedent hc with h1 | h1
  · rw [h1]; exact nl_is_ws
  · exact h c h1

theorem pyStrip_all_ws {v : Str} (h : v.all isPySpace = true) : pyStrip v = [] := by
  unfold pyStrip
  rw [List.dropWhile_eq_nil_iff.mpr (List.all_eq_true.mp h)]
  rfl

/-- C8.  On an empty or whitespace-only input, dedent-and-trim
(`multipyline`) returns the empty string, and indent-and-trim
(`multipyline_inner`) returns the empty string for every prefix string. -/
theorem multipyline_ws_empty (s : Str) (h : s.all isPySpace = true) :
    multipyline s = [] ∧ ∀ p, multipyline_inner s p = [] := by
  have h1 : multipyline s = [] := pyStrip_all_ws (dedent_all_ws h)
  refine ⟨h1, fun p => ?_⟩
  show pyStrip (pyIndent (multipyline s) p) = []
  rw [h1]
  rfl

def wsC8 : Str := ("  \n \t ").toList

def pC8 : Str := ("zz").toList

/-- Witness for C8 at a concrete whitespace-only input and concrete prefix. -/
theorem multipyline_ws_empty_wit :
    wsC8.all isPySpace = true ∧ (multipyline wsC8 = [] ∧ multipyline_inner wsC8 pC8 = []) :=
  ⟨by decide,
    ⟨(multipyline_ws_empty wsC8 (by decide)).1,
      (multipyline_ws_empty wsC8 (by decide)).2 pC8⟩⟩

/-! ### Marker-counting lemmas -/

theorem contains_iff_pos (l : Str) : containsTmpl l = true ↔ 0 < countTmpl l := by
  induction l using countTmpl.induct with
  | case1 => simp [containsTmpl, countTmpl]
  | case2 c => simp [containsTmpl, countTmpl]
  | case3 c1 c2 rest h ih => simp [containsTmpl, countTmpl, h]
  | case4 c1 c2 rest h ih => simp [containsTmpl, countTmpl, h, ih]

theorem countTmpl_cons_le (c : Char) (l : Str) : countTmpl l ≤ countTmpl (c :: l) := by
  cases l with
  | nil => simp [countTmpl]
  | cons c1 t =>
    cases t with
    | nil =>
      by_cases h : c = '\x7b' ∧ c1 = '\x7d' <;> simp [countTmpl, h]
    | cons c2 rest =>
      by_cases h1 : c = '\x7b' ∧ c1 = '\x7d'
      · by_cases h2 : c1 = '\x7b' ∧ c2 = '\x7d'
        · exact absurd (h1.2 ▸ h2.1) (by decide)
        · simp [countTmpl, h1, h2]
      · simp [countTmpl, h1]

theorem countTmpl_cons_not_lb {c : Char} (h : ¬ c = '\x7b') (l : Str) :
    countTmpl (c :: l) = countTmpl l := by
  cases l with
  | nil => simp [countTmpl]
  | cons d t =>
    simp only [countTmpl]
    rw [if_neg (fun hh : c = '\x7b' ∧ d = '\x7d' => h hh.1)]

theorem fieldCount_le_countTmpl (u : Str) : fieldCount u ≤ countTmpl u := by
  induction u using fieldCount.induct with
  | case1 => simp [fieldCount, countTmpl]
  | case2 c => simp [fieldCount, countTmpl]
  | case3 c1 c2 rest h ih => simp [fieldCount, countTmpl, h]; omega
  | case4 c1 c2 rest h1 h2 ih =>
    simp only [fieldCount, countTmpl, if_neg h1, if_pos h2]
    exact le_trans ih (countTmpl_cons_le c2 rest)
  | case5 c1 c2 rest h1 h2 ih =>
    simp only [fieldCount, countTmpl, if_neg h1, if_neg h2]
    exact ih

theorem findTmpl_isSome {l : Str} (h : 0 < countTmpl l) : ∃ i, findTmpl l = some i := by
  induction l using countTmpl.induct with
  | case1 => simp [countTmpl] at h
  | case2 c => simp [countTmpl] at h
  | case3 c1 c2 rest h1 ih => exact ⟨0, by simp [findTmpl, h1]⟩
  | case4 c1 c2 rest h1 ih =>
    rw [countTmpl, if_neg h1] at h
    rcases ih h with ⟨i, hi⟩
    exact ⟨i + 1, by simp [findTmpl, h1, hi]⟩

theorem subst1_marker (rest a : Str) : subst1 ('\x7b' :: '\x7d' :: rest) a = a ++ rest := by
  unfold subst1
  simp [findTmpl]

theorem subst1_cons {c1 c2 : Char} {rest : Str} (hnm : ¬(c1 = '\x7b' ∧ c2 = '\x7d'))
    (hf : 0 < countTmpl (c2 :: rest)) (a : Str) :
    subst1 (c1 :: c2 :: rest) a = c1 :: subst1 (c2 :: rest) a := by
  rcases findTmpl_isSome hf with ⟨i, hi⟩
  unfold subst1
  rw [findTmpl, if_neg hnm, hi]
  simp [List.take_succ_cons, List.drop_succ_cons]

/-! ### Characterization of the scanning loop -/

theorem set_len_append (l1 : List Str) (a v : Str) (l2 : List Str) :
    (l1 ++ a :: l2).set l1.length v = l1 ++ v :: l2 := by
  induction l1 with
  | nil => rfl
  | cons x xs ih => simp [List.set_cons_succ, ih]

theorem setFrom_pad : ∀ (vs : List Str) (done : List Str) (m : Nat), vs.length ≤ m →
    setFrom (done ++ List.replicate m []) done.length vs
      = done ++ vs ++ List.replicate (m - vs.length) [] := by
  intro vs
  induction vs with
  | nil => intro done m _; simp [setFrom]
  | cons v vs ih =>
    intro done m hm
    cases m with
    | zero => simp at hm
    | succ m' =>
      rw [List.replicate_succ]
      show setFrom ((done ++ [] :: List.replicate m' []).set done.length v)
          (done.length + 1) vs = _
      rw [set_len_append done [] v (List.replicate m' [])]
      have : done ++ v :: List.replicate m' [] = (done ++ [v]) ++ List.replicate m' [] := by simp
      rw [this]
      have hlen : done.length + 1 = (done ++ [v]).length := by simp
      rw [hlen, ih (done ++ [v]) m' (by simpa using hm)]
      simp

theorem scanLoop_eq (args : List Str) (lines : List Str) :
    ∀ k acc, (∀ l ∈ lines, countTmpl l ≤ 1) →
      k + (lines.filter containsTmpl).length ≤ args.length →
      scanLoop args lines k acc
        = .ok (setFrom acc k
            (List.zipWith transformArg (lines.filter containsTmpl) (args.drop k))) := by
  induction lines with
  | nil => intro k acc _ _; simp [scanLoop, setFrom]
  | cons line rest ih =>
    intro k acc hcount hlen
    by_cases hc : containsTmpl line = true
    · have hcnt : countTmpl line ≤ 1 := hcount line (by simp)
      have hnot : ¬ 1 < countTmpl line := by omega
      have hfl : (line :: rest).filter containsTmpl = line :: rest.filter containsTmpl :=
        List.filter_cons_of_pos hc
      have hk : k < args.length := by
        rw [hfl] at hlen
        simp only [List.length_cons] at hlen
        omega
      have ha : args[k]? = some args[k] := List.getElem?_eq_getElem hk
      simp only [scanLoop]
      rw [if_neg (by simp [hc]), if_neg hnot, ha]
      change scanLoop args rest (k + 1) (acc.set k (transformArg line args[k])) = _
      rw [ih (k + 1) (acc.set k (transformArg line args[k]))
        (fun l hl => hcount l (List.mem_cons_of_mem _ hl))
        (by rw [hfl] at hlen; simp only [List.length_cons] at hlen; omega)]
      rw [hfl, List.drop_eq_getElem_cons hk, List.zipWith_cons_cons]
      rfl
    · have hfl : (line :: rest).filter containsTmpl = rest.filter containsTmpl :=
        List.filter_cons_of_neg hc
      simp only [scanLoop]
      rw [if_pos (by simp [hc] : containsTmpl line = false)]
      rw [ih k acc (fun l hl => hcount l (List.mem_cons_of_mem _ hl)) (by rw [hfl] at hlen; exact hlen)]
      rw [hfl]

theorem scanLoop_short (args : List Str) (lines : List Str) :
    ∀ k acc, (∀ l ∈ lines, countTmpl l ≤ 1) →
      args.length < k + (lines.filter containsTmpl).length → k ≤ args.length →
      scanLoop args lines k acc = .error .indexError := by
  induction lines with
  | nil =>
    intro k acc _ hlen hk
    simp only [List.filter_nil, List.length_nil] at hlen
    omega
  | cons line rest ih =>
    intro k acc hcount hlen hk
    by_cases hc : containsTmpl line = true
    · have hcnt : countTmpl line ≤ 1 := hcount line (by simp)
      have hnot : ¬ 1 < countTmpl line := by omega
      have hfl : (line :: rest).filter containsTmpl = line :: rest.filter containsTmpl :=
        List.filter_cons_of_pos hc
      rw [hfl] at hlen
      simp only [List.length_cons] at hlen
      simp only [scanLoop]
      rw [if_neg (by simp [hc]), if_neg hnot]
      by_cases hkl : k < args.length
      · rw [List.getElem?_eq_getElem hkl]
        exact ih (k + 1) _ (fun l hl => hcount l (List.mem_cons_of_mem _ hl))
          (by omega) (by omega)
      · rw [List.getElem?_eq_none (by omega)]
    · have hfl : (line :: rest).filter containsTmpl = rest.filter containsTmpl :=
        List.filter_cons_of_neg hc
      rw [hfl] at hlen
      simp only [scanLoop]
      rw [if_pos (by simp [hc] : containsTmpl line = false)]
      exact ih k acc (fun l hl => hcount l (List.mem_cons_of_mem _ hl)) hlen hk

theorem scanLoop_noMarker (args : List Str) (lines : List Str)
    (h : ∀ l ∈ lines, containsTmpl l = false) :
    ∀ k acc, scanLoop args lines k acc = .ok acc := by
  induction lines with
  | nil => intro k acc; rfl
  | cons line rest ih =>
    intro k acc
    simp only [scanLoop]
    rw [if_pos (h line (by simp))]
    exact ih (fun l hl => h l (List.mem_cons_of_mem _ hl)) k acc

theorem scanLoop_err (args : List Str) (lines : List Str) :
    ∀ k acc, (∃ l ∈ lines, 1 < countTmpl l) →
      ∃ e, scanLoop args lines k acc = .error e := by
  induction lines with
  | nil => intro k acc h; simp at h
  | cons line rest ih =>
    intro k acc h
    by_cases hmulti : 1 < countTmpl line
    · have hc : containsTmpl line = true := (contains_iff_pos line).mpr (by omega)
      simp only [scanLoop]
      rw [if_neg (by simp [hc]), if_pos hmulti]
      exact ⟨.valueError, rfl⟩
    · have hrest : ∃ l ∈ rest, 1 < countTmpl l := by
        rcases h with ⟨l, hl, hgt⟩
        rcases List.mem_cons.mp hl with rfl | hl
        · exact absurd hgt hmulti
        · exact ⟨l, hl, hgt⟩
      by_cases hc : containsTmpl line = true
      · simp only [scanLoop]
        rw [if_neg (by simp [hc]), if_neg hmulti]
        cases hk : args[k]? with
        | none => exact ⟨.indexError, rfl⟩
        | some a => exact ih (k + 1) _ hrest
      · simp only [scanLoop]
        rw [if_pos (by simp [hc] : containsTmpl line = false)]
        exact ih k acc hrest

theorem scanLoop_val (args : List Str) (lines : List Str) :
    ∀ k acc, (∃ l ∈ lines, 1 < countTmpl l) →
      k + (lines.filter containsTmpl).length ≤ args.length →
      scanLoop args lines k acc = .error .valueError := by
  induction lines with
  | nil => intro k acc h _; simp at h
  | cons line rest ih =>
    intro k acc h hlen
    by_cases hmulti : 1 < countTmpl line
    · have hc : containsTmpl line = true := (contains_iff_pos line).mpr (by omega)
      simp only [scanLoop]
      rw [if_neg (by simp [hc]), if_pos hmulti]
    · have hrest : ∃ l ∈ rest, 1 < countTmpl l := by
        rcases h with ⟨l, hl, hgt⟩
        rcases List.mem_cons.mp hl with rfl | hl
        · exact absurd hgt hmulti
        · exact ⟨l, hl, hgt⟩
      by_cases hc : containsTmpl line = true
      · have hfl : (line :: rest).filter containsTmpl = line :: rest.filter containsTmpl :=
          List.filter_cons_of_pos hc
        rw [hfl] at hlen
        simp only [List.length_cons] at hlen
        have hmem : containsTmpl (Classical.choose (by
          rcases hrest with ⟨l, hl, hgt⟩
          exact ⟨l, hl, hgt⟩ : ∃ l, l ∈ rest ∧ 1 < countTmpl l)) = true := by
          have hsp := Classical.choose_spec (by
            rcases hrest with ⟨l, hl, hgt⟩
            exact ⟨l, hl, hgt⟩ : ∃ l, l ∈ rest ∧ 1 < countTmpl l)
          exact (contains_iff_pos _).mpr (by omega)
        have hpos : 0 < (rest.filter containsTmpl).length := by
          have hsp := Classical.choose_spec (by
            rcases hrest with ⟨l, hl, hgt⟩
            exact ⟨l, hl, hgt⟩ : ∃ l, l ∈ rest ∧ 1 < countTmpl l)
          have : Classical.choose _ ∈ rest.filter containsTmpl :=
            List.mem_filter.mpr ⟨hsp.1, hmem⟩
          calc 0 < 1 := Nat.zero_lt_one
            _ ≤ (rest.filter containsTmpl).length := List.length_pos.mpr (fun hemp => by
              rw [hemp] at this; simp at this)
        have hk : k < args.length := by omega
        simp only [scanLoop]
        rw [if_neg (by simp [hc]), if_neg hmulti, List.getElem?_eq_getElem hk]
        exact ih (k + 1) _ hrest (by omega)
      · have hfl : (line :: rest).filter containsTmpl = rest.filter containsTmpl :=
          List.filter_cons_of_neg hc
        rw [hfl] at hlen
        simp only [scanLoop]
        rw [if_pos (by simp [hc] : containsTmpl line = false)]
        exact ih k acc hrest hlen

/-! ### Counting markers per line -/

theorem countTmpl_marker_cons (rest : Str) :
    countTmpl ('\x7b' :: '\x7d' :: rest) = countTmpl rest + 1 := by
  simp [countTmpl]

theorem countTmpl_cons_cons_neg {c1 c2 : Char} (h : ¬(c1 = '\x7b' ∧ c2 = '\x7d')) (t : Str) :
    countTmpl (c1 :: c2 :: t) = countTmpl (c2 :: t) := by
  simp only [countTmpl]
  rw [if_neg h]

theorem countTmpl_append_nl (a b : Str) :
    countTmpl (a ++ '\n' :: b) = countTmpl a + countTmpl b := by
  induction a using countTmpl.induct with
  | case1 =>
    rw [List.nil_append, countTmpl_cons_not_lb (by decide) b]
    have h00 : countTmpl ([] : Str) = 0 := rfl
    omega
  | case2 c =>
    rw [List.singleton_append,
      countTmpl_cons_cons_neg (fun hh => absurd hh.2 (by decide)),
      countTmpl_cons_not_lb (by decide) b]
    have : countTmpl [c] = 0 := by simp [countTmpl]
    omega
  | case3 c1 c2 rest h ih =>
    rcases h with ⟨h1, h2⟩
    subst h1; subst h2
    rw [List.cons_append, List.cons_append, countTmpl_marker_cons, countTmpl_marker_cons, ih]
    omega
  | case4 c1 c2 rest h ih =>
    rw [List.cons_append, List.cons_append, countTmpl_cons_cons_neg h,
      countTmpl_cons_cons_neg h, ← List.cons_append, ih]

theorem countTmpl_joinNL (ls : List Str) :
    countTmpl (joinNL ls) = (ls.map countTmpl).sum := by
  induction ls with
  | nil => simp [joinNL, countTmpl]
  | cons l rest ih =>
    cases rest with
    | nil => simp [joinNL]
    | cons b bs =>
      rw [joinNL_cons (by simp : (b :: bs : List Str) ≠ []) l, countTmpl_append_nl, ih]
      simp

theorem countTmpl_lines (s : Str) :
    countTmpl s = ((pySplitlines s).map countTmpl).sum := by
  have h0 : countTmpl s = ((splitNL s).map countTmpl).sum := by
    conv_lhs => rw [← joinNL_splitNL s]
    exact countTmpl_joinNL (splitNL s)
  have hdef : pySplitlines s
      = if (splitNL s).getLast? = some [] then (splitNL s).dropLast else splitNL s := rfl
  rw [h0, hdef]
  split
  · rename_i hlast
    have hne : splitNL s ≠ [] := splitNL_ne_nil s
    have hgl : (splitNL s).getLast hne = [] := by
      have h1 := List.getLast?_eq_getLast (splitNL s) hne
      rw [hlast] at h1
      exact (Option.some.inj h1).symm
    conv_lhs => rw [← List.dropLast_append_getLast hne, hgl]
    simp [countTmpl]
  · rfl

theorem filterLen_eq_sum {ls : List Str} (h : ∀ l ∈ ls, countTmpl l ≤ 1) :
    (ls.filter containsTmpl).length = (ls.map countTmpl).sum := by
  induction ls with
  | nil => rfl
  | cons l rest ih =>
    have hle : countTmpl l ≤ 1 := h l (by simp)
    have ih' := ih (fun x hx => h x (List.mem_cons_of_mem l hx))
    by_cases hc : containsTmpl l = true
    · have : 0 < countTmpl l := (contains_iff_pos l).mp hc
      have h1 : countTmpl l = 1 := by omega
      rw [List.filter_cons_of_pos hc, List.map_cons, List.length_cons, List.sum_cons, h1, ih']
      omega
    · have : ¬ 0 < countTmpl l := fun hgt => hc ((contains_iff_pos l).mpr hgt)
      have h0 : countTmpl l = 0 := by omega
      rw [List.filter_cons_of_neg hc, List.map_cons, List.sum_cons, h0, ih']
      omega

/-! ### C4: insufficient arguments -/

/-- C4.  When every template line carries at most one placeholder marker but
the total number of marker occurrences exceeds the number of supplied
arguments, `multipylinef` fails with the out-of-range error (`IndexError`)
rather than returning a partial result. -/
theorem multipylinef_insufficient_args (s : Str) (args : List Str)
    (h1 : ∀ l ∈ pySplitlines s, countTmpl l ≤ 1)
    (h2 : args.length < countTmpl s) :
    multipylinef s args = .error .indexError := by
  have hsum := countTmpl_lines s
  have hflt := filterLen_eq_sum h1
  unfold multipylinef
  rw [scanLoop_short args (pySplitlines s) 0 _ h1 (by omega) (by omega)]

def tC4 : Str := ("\x7b\x7d\n\x7b\x7d").toList

def argsC4 : List Str := [("a").toList]

/-- Witness for C4: a two-placeholder template with one argument. -/
theorem multipylinef_insufficient_args_wit :
    ((∀ l ∈ pySplitlines tC4, countTmpl l ≤ 1) ∧ argsC4.length < countTmpl tC4) ∧
      multipylinef tC4 argsC4 = .error .indexError :=
  ⟨⟨by decide, by decide⟩, multipylinef_insufficient_args tC4 argsC4 (by decide) (by decide)⟩

/-! ### C3: a line with more than one marker -/

def tC3 : Str := ("\x7b\x7d\n\x7b\x7d\x7b\x7d").toList

/-- C3 counterexample.  The template `"{}\n{}{}"` has a line with two
markers, yet called with no arguments `multipylinef` raises `IndexError`
(from `args[arg_counter]` on the first line), not the claimed
`ValueError`. -/
theorem multipylinef_multi_marker_cex :
    (∃ l ∈ pySplitlines tC3, 1 < countTmpl l) ∧
      multipylinef tC3 [] = .error .indexError ∧
      ¬ multipylinef tC3 [] = .error .valueError := by decide

/-- C3 (amended).  When some template line contains more than one
placeholder marker, `multipylinef` fails with an error for every argument
list; it fails specifically with `ValueError` whenever at least as many
arguments are supplied as there are marker-bearing lines. -/
theorem multipylinef_multi_marker (s : Str) (args : List Str)
    (h : ∃ l ∈ pySplitlines s, 1 < countTmpl l) :
    (∃ e, multipylinef s args = .error e) ∧
      ((markerLines s).length ≤ args.length →
        multipylinef s args = .error .valueError) := by
  constructor
  · rcases scanLoop_err args (pySplitlines s) 0 (List.replicate args.length []) h with ⟨e, he⟩
    refine ⟨e, ?_⟩
    unfold multipylinef
    rw [he]
  · intro hlen
    unfold multipylinef
    rw [scanLoop_val args (pySplitlines s) 0 (List.replicate args.length []) h
      (by simpa [markerLines] using hlen)]

def tC3w : Str := ("\x7b\x7d\x7b\x7d").toList

def argsC3w : List Str := [("a").toList]

/-- Witness for the amended C3 at a concrete template and argument list. -/
theorem multipylinef_multi_marker_wit :
    (∃ l ∈ pySplitlines tC3w, 1 < countTmpl l) ∧
      ((∃ e, multipylinef tC3w argsC3w = .error e) ∧
        ((markerLines tC3w).length ≤ argsC3w.length →
          multipylinef tC3w argsC3w = .error .valueError)) :=
  ⟨by decide, multipylinef_multi_marker tC3w argsC3w (by decide)⟩

/-! ### C5: templates without placeholders -/

theorem braceFree_cons {c : Char} {t : Str} (h : braceFree (c :: t) = true) :
    (¬ c = '\x7b' ∧ ¬ c = '\x7d') ∧ braceFree t = true := by
  simp only [braceFree, List.all_cons, Bool.and_eq_true, Bool.not_eq_eq_eq_not,
    Bool.not_true, Bool.or_eq_false_iff, decide_eq_false_iff_not] at h
  exact ⟨h.1, h.2⟩

theorem braceFree_containsTmpl {l : Str} (h : braceFree l = true) :
    containsTmpl l = false := by
  induction l with
  | nil => rfl
  | cons c t ih =>
    rcases braceFree_cons h with ⟨⟨hc, _⟩, ht⟩
    cases t with
    | nil => rfl
    | cons c2 rest =>
      simp only [containsTmpl, Bool.or_eq_false_iff, Bool.and_eq_false_iff]
      exact ⟨Or.inl (by simp [hc]), ih ht⟩

theorem pyFormatCore_braceFree {u : Str} (h : braceFree u = true) (args : List Str) (k : Nat) :
    pyFormatCore u args k = .ok u := by
  induction u generalizing k with
  | nil => rfl
  | cons c t ih =>
    rcases braceFree_cons h with ⟨⟨hc1, hc2⟩, ht⟩
    cases t with
    | nil =>
      simp only [pyFormatCore]
      rw [if_neg (by simp [hc1, hc2])]
    | cons c2 rest =>
      simp only [pyFormatCore]
      rw [if_neg hc1, if_neg hc2, ih ht k]

theorem mem_pySplitlines {s l : Str} (h : l ∈ pySplitlines s) : l ∈ splitNL s := by
  have hdef : pySplitlines s
      = if (splitNL s).getLast? = some [] then (splitNL s).dropLast else splitNL s := rfl
  rw [hdef] at h
  split at h
  · exact (List.dropLast_sublist (splitNL s)).subset h
  · exact h

theorem braceFree_line {s l : Str} (hs : braceFree s = true) (hl : l ∈ splitNL s) :
    braceFree l = true := by
  unfold braceFree at hs ⊢
  rw [List.all_eq_true] at hs ⊢
  exact fun c hc => hs c (mem_of_mem_line hl hc)

theorem multipylinef_scan_ok {s : Str} {args fargs : List Str}
    (hscan : scanLoop args (pySplitlines s) 0 (List.replicate args.length []) = .ok fargs) :
    multipylinef s args
      = match pyFormat s fargs with
        | .error e => .error e
        | .ok t => .ok (multipyline t) := by
  unfold multipylinef
  rw [hscan]

/-- C5 (amended).  For every template containing no brace characters at all
(in particular, zero placeholder markers) and every argument list,
`multipylinef` returns `multipyline` of the template. -/
theorem multipylinef_zero_placeholder (s : Str) (args : List Str)
    (h : braceFree s = true) :
    multipylinef s args = .ok (multipyline s) := by
  rw [multipylinef_scan_ok (scanLoop_noMarker args (pySplitlines s)
    (fun l hl => braceFree_containsTmpl (braceFree_line h (mem_pySplitlines hl)))
    0 (List.replicate args.length []))]
  unfold pyFormat
  rw [pyFormatCore_braceFree h]

def tC5 : Str := ("\x7b\x7b").toList

/-- C5 counterexample.  The template `"{{"` contains zero `"{}"` markers,
yet `multipylinef` does not return `multipyline` of the template: the
escape collapses to a single brace. -/
theorem multipylinef_zero_placeholder_cex :
    countTmpl tC5 = 0 ∧
      multipylinef tC5 [] = .ok ['\x7b'] ∧
      multipyline tC5 = ['\x7b', '\x7b'] ∧
      ¬ multipylinef tC5 [] = .ok (multipyline tC5) := by decide

def tC5w : Str := (" a\n  b").toList

def argsC5w : List Str := [("z").toList]

/-- Witness for the amended C5 at a concrete brace-free template. -/
theorem multipylinef_zero_placeholder_wit :
    braceFree tC5w = true ∧ multipylinef tC5w argsC5w = .ok (multipyline tC5w) :=
  ⟨by decide, multipylinef_zero_placeholder tC5w argsC5w (by decide)⟩

/-! ### C1: which arguments get the indentation-aware transformation -/

/-- C1.  For a template whose lines each carry at most one marker and with
enough arguments, `multipylinef` substitutes positionally the transformed
arguments: the i-th marker-bearing line's argument is passed through
`transformArg`, which applies `multipyline_inner` with the text preceding
the marker as prefix exactly when the argument has more than one line and
the line, dedented in isolation, starts with the marker, and keeps the
argument unmodified in every other case. -/
theorem multipylinef_transform_spec (s : Str) (args : List Str)
    (h1 : ∀ l ∈ pySplitlines s, countTmpl l ≤ 1)
    (h2 : (markerLines s).length ≤ args.length) :
    multipylinef s args
      = match pyFormat s (List.zipWith transformArg (markerLines s) args
            ++ List.replicate (args.length - (markerLines s).length) []) with
        | .error e => .error e
        | .ok t => .ok (multipyline t) := by
  unfold markerLines at h2 ⊢
  have hscan := scanLoop_eq args (pySplitlines s) 0 (List.replicate args.length []) h1
    (by simpa using h2)
  rw [List.drop_zero] at hscan
  have hz : (List.zipWith transformArg ((pySplitlines s).filter containsTmpl) args).length
      = ((pySplitlines s).filter containsTmpl).length := by
    rw [List.length_zipWith]
    exact Nat.min_eq_left h2
  have hsf := setFrom_pad
    (List.zipWith transformArg ((pySplitlines s).filter containsTmpl) args)
    [] args.length (by rw [hz]; exact h2)
  simp only [List.nil_append, List.length_nil] at hsf
  rw [hsf] at hscan
  rw [multipylinef_scan_ok hscan, hz]

def tC1 : Str := ("x\x7b\x7d\n    \x7b\x7d").toList

def argsC1 : List Str := [("one").toList, ("p\nq").toList]

/-- Witness for C1 at a concrete template: one line whose marker is not the
first token (argument kept verbatim) and one marker-leading line with a
two-line argument (argument reindented). -/
theorem multipylinef_transform_spec_wit :
    ((∀ l ∈ pySplitlines tC1, countTmpl l ≤ 1) ∧ (markerLines tC1).length ≤ argsC1.length) ∧
      multipylinef tC1 argsC1
        = match pyFormat tC1 (List.zipWith transformArg (markerLines tC1) argsC1
              ++ List.replicate (argsC1.length - (markerLines tC1).length) []) with
          | .error e => .error e
          | .ok t => .ok (multipyline t) :=
  ⟨⟨by decide, by decide⟩, multipylinef_transform_spec tC1 argsC1 (by decide) (by decide)⟩

/-! ### C2: the documented indentation example -/

/-- C2.  On the template `"    def fun():\n        {}"` with the two-line
argument `"a\nb"`, `multipylinef` returns exactly
`"def fun():\n    a\n    b"`: the argument's second line is indented to the
column of its first line. -/
theorem multipylinef_indent_example : multipylinef tmplC2 [argC2] = .ok outC2 := by decide

/-! ### Step lemmas for the `str.format` model -/

theorem pyFormatCore_esc_lb (rest : Str) (args : List Str) (k : Nat) :
    pyFormatCore ('\x7b' :: '\x7b' :: rest) args k
      = match pyFormatCore rest args k with
        | .error e => .error e
        | .ok t => .ok ('\x7b' :: t) := by
  simp [pyFormatCore]

theorem pyFormatCore_field (rest : Str) (args : List Str) (k : Nat) :
    pyFormatCore ('\x7b' :: '\x7d' :: rest) args k
      = match args[k]? with
        | none => .error .indexError
        | some a =>
          match pyFormatCore rest args (k + 1) with
          | .error e => .error e
          | .ok t => .ok (a ++ t) := by
  simp [pyFormatCore]

theorem pyFormatCore_esc_rb (rest : Str) (args : List Str) (k : Nat) :
    pyFormatCore ('\x7d' :: '\x7d' :: rest) args k
      = match pyFormatCore rest args k with
        | .error e => .error e
        | .ok t => .ok ('\x7d' :: t) := by
  simp [pyFormatCore]

theorem pyFormatCore_lit {c : Char} (h1 : ¬ c = '\x7b') (h2 : ¬ c = '\x7d')
    (w : Str) (args : List Str) (k : Nat) :
    pyFormatCore (c :: w) args k
      = match pyFormatCore w args k with
        | .error e => .error e
        | .ok t => .ok (c :: t) := by
  cases w with
  | nil => simp [pyFormatCore, h1, h2]
  | cons c2 rest =>
    simp only [pyFormatCore]
    rw [if_neg h1, if_neg h2]

theorem fieldCount_esc_lb (rest : Str) :
    fieldCount ('\x7b' :: '\x7b' :: rest) = fieldCount rest := by
  simp [fieldCount]

theorem fieldCount_field (rest : Str) :
    fieldCount ('\x7b' :: '\x7d' :: rest) = fieldCount rest + 1 := by
  simp [fieldCount]

theorem fieldCount_esc_rb (rest : Str) :
    fieldCount ('\x7d' :: '\x7d' :: rest) = fieldCount rest := by
  simp [fieldCount]

theorem fieldCount_lit {c : Char} (h1 : ¬ c = '\x7b') (h2 : ¬ c = '\x7d') (w : Str) :
    fieldCount (c :: w) = fieldCount w := by
  cases w with
  | nil => simp [fieldCount]
  | cons c2 rest =>
    simp only [fieldCount]
    rw [if_neg (fun hh => h1 hh.1), if_neg (fun hh => hh.elim (fun h => h1 h.1) (fun h => h2 h.1))]

theorem wfFmt_lb {c2 : Char} {rest : Str} (h : wfFmt ('\x7b' :: c2 :: rest) = true) :
    (c2 = '\x7b' ∨ c2 = '\x7d') ∧ wfFmt rest = true := by
  simp [wfFmt] at h
  exact h

theorem wfFmt_rb {c2 : Char} {rest : Str} (h : wfFmt ('\x7d' :: c2 :: rest) = true) :
    c2 = '\x7d' ∧ wfFmt rest = true := by
  simp [wfFmt] at h
  exact h

theorem wfFmt_lit {c : Char} {c2 : Char} {rest : Str}
    (h1 : ¬ c = '\x7b') (h2 : ¬ c = '\x7d') (h : wfFmt (c :: c2 :: rest) = true) :
    wfFmt (c2 :: rest) = true := by
  simp only [wfFmt, if_neg h1, if_neg h2] at h
  exact h

theorem wfFmt_single {c : Char} (h : wfFmt [c] = true) :
    ¬ c = '\x7b' ∧ ¬ c = '\x7d' := by
  simp only [wfFmt, Bool.not_eq_eq_eq_not, Bool.not_true, Bool.or_eq_false_iff,
    decide_eq_false_iff_not] at h
  exact h

/-! ### `str.format` consumes arguments positionally and ignores extras -/

theorem pyFormatCore_pad (u : Str) : ∀ (Z pad : List Str) (k : Nat), wfFmt u = true →
    k + fieldCount u ≤ Z.length →
    pyFormatCore u (Z ++ pad) k = pyFormatCore u Z k := by
  induction u using wfFmt.induct with
  | case1 => intro Z pad k _ _; rfl
  | case2 c => intro Z pad k _ _; simp [pyFormatCore]
  | case3 c2 rest ih =>
    intro Z pad k hw hlen
    rcases wfFmt_lb hw with ⟨hc2, hrest⟩
    rcases hc2 with rfl | rfl
    · rw [fieldCount_esc_lb] at hlen
      rw [pyFormatCore_esc_lb, pyFormatCore_esc_lb, ih Z pad k hrest hlen]
    · rw [fieldCount_field] at hlen
      have hk : k < Z.length := by omega
      rw [pyFormatCore_field, pyFormatCore_field, List.getElem?_append_left hk,
        ih Z pad (k + 1) hrest (by omega)]
  | case4 c2 rest h ih =>
    intro Z pad k hw hlen
    rcases wfFmt_rb hw with ⟨rfl, hrest⟩
    rw [fieldCount_esc_rb] at hlen
    rw [pyFormatCore_esc_rb, pyFormatCore_esc_rb, ih Z pad k hrest hlen]
  | case5 c1 c2 rest h1 h2 ih =>
    intro Z pad k hw hlen
    rw [fieldCount_lit h1 h2] at hlen
    rw [pyFormatCore_lit h1 h2, pyFormatCore_lit h1 h2,
      ih Z pad k (wfFmt_lit h1 h2 hw) hlen]

theorem pyFormatCore_ok (u : Str) : ∀ (args : List Str) (k : Nat), wfFmt u = true →
    k + fieldCount u ≤ args.length →
    ∃ r, pyFormatCore u args k = .ok r := by
  induction u using wfFmt.induct with
  | case1 => intro args k _ _; exact ⟨[], rfl⟩
  | case2 c =>
    intro args k hw _
    rcases wfFmt_single hw with ⟨h1, h2⟩
    exact ⟨[c], by simp [pyFormatCore, h1, h2]⟩
  | case3 c2 rest ih =>
    intro args k hw hlen
    rcases wfFmt_lb hw with ⟨hc2, hrest⟩
    rcases hc2 with rfl | rfl
    · rw [fieldCount_esc_lb] at hlen
      rcases ih args k hrest hlen with ⟨r, hr⟩
      exact ⟨'\x7b' :: r, by rw [pyFormatCore_esc_lb, hr]⟩
    · rw [fieldCount_field] at hlen
      have hk : k < args.length := by omega
      rcases ih args (k + 1) hrest (by omega) with ⟨r, hr⟩
      exact ⟨args[k] ++ r, by rw [pyFormatCore_field, List.getElem?_eq_getElem hk, hr]⟩
  | case4 c2 rest h ih =>
    intro args k hw hlen
    rcases wfFmt_rb hw with ⟨rfl, hrest⟩
    rw [fieldCount_esc_rb] at hlen
    rcases ih args k hrest hlen with ⟨r, hr⟩
    exact ⟨'\x7d' :: r, by rw [pyFormatCore_esc_rb, hr]⟩
  | case5 c1 c2 rest h1 h2 ih =>
    intro args k hw hlen
    rw [fieldCount_lit h1 h2] at hlen
    rcases ih args k (wfFmt_lit h1 h2 hw) hlen with ⟨r, hr⟩
    exact ⟨c1 :: r, by rw [pyFormatCore_lit h1 h2, hr]⟩

/-! ### C10: surplus arguments are ignored -/

theorem zipWith_take_len (f : Str → Str → Str) (ml : List Str) :
    ∀ args : List Str, List.zipWith f ml (args.take ml.length) = List.zipWith f ml args := by
  induction ml with
  | nil => intro args; simp
  | cons m ms ih =>
    intro args
    cases args with
    | nil => simp
    | cons a as =>
      rw [List.length_cons, List.take_succ_cons, List.zipWith_cons_cons,
        List.zipWith_cons_cons, ih as]

/-- C10 (amended).  For a template whose braces `str.format` accepts, whose
lines each carry at most one marker, and which has fewer markers than there
are arguments, `multipylinef` succeeds and returns the same result as when
called with only the first `countTmpl s` arguments: surplus arguments are
never consumed. -/
theorem multipylinef_extra_args (s : Str) (args : List Str)
    (h1 : ∀ l ∈ pySplitlines s, countTmpl l ≤ 1)
    (h2 : wfFmt s = true)
    (h3 : countTmpl s < args.length) :
    (∃ r, multipylinef s args = .ok r) ∧
      multipylinef s args = multipylinef s (args.take (countTmpl s)) := by
  have hm : ((pySplitlines s).filter containsTmpl).length = countTmpl s := by
    rw [filterLen_eq_sum h1, ← countTmpl_lines]
  set Z := List.zipWith transformArg ((pySplitlines s).filter containsTmpl) args with hZ
  have hZlen : Z.length = countTmpl s := by
    rw [hZ, List.length_zipWith, hm]
    exact Nat.min_eq_left (by omega)
  have hscanA := scanLoop_eq args (pySplitlines s) 0 (List.replicate args.length []) h1
    (by omega)
  rw [List.drop_zero, ← hZ] at hscanA
  have hsfA := setFrom_pad Z [] args.length (by rw [hZlen]; omega)
  simp only [List.nil_append, List.length_nil] at hsfA
  rw [hsfA] at hscanA
  have htlen : (args.take (countTmpl s)).length = countTmpl s := by
    rw [List.length_take]
    omega
  have hscanB := scanLoop_eq (args.take (countTmpl s)) (pySplitlines s) 0
    (List.replicate (args.take (countTmpl s)).length []) h1 (by rw [htlen]; omega)
  rw [List.drop_zero] at hscanB
  have hZB : List.zipWith transformArg ((pySplitlines s).filter containsTmpl)
      (args.take (countTmpl s)) = Z := by
    rw [hZ]
    conv_lhs => rw [hm.symm]
    rw [zipWith_take_len]
  rw [hZB] at hscanB
  have hsfB := setFrom_pad Z [] (args.take (countTmpl s)).length (by rw [hZlen, htlen])
  simp only [List.nil_append, List.length_nil] at hsfB
  rw [hsfB] at hscanB
  have hpadB : (args.take (countTmpl s)).length - Z.length = 0 := by
    rw [hZlen, htlen]
    omega
  rw [hpadB] at hscanB
  simp only [List.replicate_zero, List.append_nil] at hscanB
  have hfc := fieldCount_le_countTmpl s
  rcases pyFormatCore_ok s Z 0 h2 (by omega) with ⟨r, hr⟩
  have hpad : pyFormatCore s (Z ++ List.replicate (args.length - Z.length) []) 0
      = pyFormatCore s Z 0 :=
    pyFormatCore_pad s Z _ 0 h2 (by omega)
  have hA : multipylinef s args = .ok (multipyline r) := by
    rw [multipylinef_scan_ok hscanA]
    unfold pyFormat
    rw [hpad, hr]
  have hB : multipylinef s (args.take (countTmpl s)) = .ok (multipyline r) := by
    rw [multipylinef_scan_ok hscanB]
    unfold pyFormat
    rw [hr]
  exact ⟨⟨multipyline r, hA⟩, by rw [hA, hB]⟩

def tC10 : Str := ("\x7b").toList

def argsC10 : List Str := [("x").toList]

/-- C10 counterexample.  The template `"{"` has zero markers and one
argument is supplied (more than the marker count), yet `multipylinef`
raises `ValueError` from `str.format` instead of succeeding. -/
theorem multipylinef_extra_args_cex :
    countTmpl tC10 = 0 ∧ (∀ l ∈ pySplitlines tC10, countTmpl l ≤ 1) ∧
      countTmpl tC10 < argsC10.length ∧
      multipylinef tC10 argsC10 = .error .valueError := by decide

def tC10w : Str := ("a: \x7b\x7d").toList

def argsC10w : List Str := [("one").toList, ("two").toList, ("three").toList]

/-- Witness for the amended C10: one marker, three arguments. -/
theorem multipylinef_extra_args_wit :
    ((∀ l ∈ pySplitlines tC10w, countTmpl l ≤ 1) ∧ wfFmt tC10w = true ∧
        countTmpl tC10w < argsC10w.length) ∧
      ((∃ r, multipylinef tC10w argsC10w = .ok r) ∧
        multipylinef tC10w argsC10w
          = multipylinef tC10w (argsC10w.take (countTmpl tC10w))) :=
  ⟨⟨by decide, by decide, by decide⟩,
    multipylinef_extra_args tC10w argsC10w (by decide) (by decide) (by decide)⟩

/-! ### C9: substitution is positional -/

theorem wfTmpl_lb {c2 : Char} {rest : Str} (h : wfTmpl ('\x7b' :: c2 :: rest) = true) :
    c2 = '\x7d' ∧ wfTmpl rest = true := by
  simp [wfTmpl] at h
  exact h

theorem wfTmpl_lit {c c2 : Char} {rest : Str}
    (h1 : ¬ c = '\x7b') (h2 : ¬ c = '\x7d') (h : wfTmpl (c :: c2 :: rest) = true) :
    wfTmpl (c2 :: rest) = true := by
  simp only [wfTmpl, if_neg h1, if_neg h2] at h
  exact h

theorem wfTmpl_single {c : Char} (h : wfTmpl [c] = true) :
    ¬ c = '\x7b' ∧ ¬ c = '\x7d' := by
  simp only [wfTmpl, Bool.not_eq_eq_eq_not, Bool.not_true, Bool.or_eq_false_iff,
    decide_eq_false_iff_not] at h
  exact h

theorem pyFormatCore_wf_zero (u : Str) : ∀ (v : Str) (args : List Str) (k : Nat),
    wfTmpl u = true → countTmpl u = 0 →
    pyFormatCore (u ++ v) args k
      = match pyFormatCore v args k with
        | .error e => .error e
        | .ok t => .ok (u ++ t) := by
  induction u using wfTmpl.induct with
  | case1 =>
    intro v args k _ _
    rw [List.nil_append]
    cases h : pyFormatCore v args k <;> simp
  | case2 c =>
    intro v args k hw _
    rcases wfTmpl_single hw with ⟨hc1, hc2⟩
    rw [List.singleton_append, pyFormatCore_lit hc1 hc2]
    cases h : pyFormatCore v args k <;> simp
  | case3 c2 rest ih =>
    intro v args k hw hc
    rcases wfTmpl_lb hw with ⟨rfl, _⟩
    rw [countTmpl_marker_cons] at hc
    omega
  | case4 c2 rest h =>
    intro v args k hw _
    simp [wfTmpl] at hw
  | case5 c1 c2 rest h1 h2 ih =>
    intro v args k hw hc
    have hrest : wfTmpl (c2 :: rest) = true := wfTmpl_lit h1 h2 hw
    have hcnt : countTmpl (c2 :: rest) = 0 := by
      rw [countTmpl_cons_cons_neg (fun hh => h1 hh.1)] at hc
      exact hc
    rw [List.cons_append, pyFormatCore_lit h1 h2, ih v args k hrest hcnt]
    cases h : pyFormatCore v args k <;> simp

theorem pyFormatCore_wf_one (u : Str) : ∀ (v : Str) (args : List Str) (k : Nat) (a : Str),
    wfTmpl u = true → countTmpl u = 1 → args[k]? = some a →
    pyFormatCore (u ++ v) args k
      = match pyFormatCore v args (k + 1) with
        | .error e => .error e
        | .ok t => .ok (subst1 u a ++ t) := by
  induction u using wfTmpl.induct with
  | case1 =>
    intro v args k a _ hc _
    simp [countTmpl] at hc
  | case2 c =>
    intro v args k a _ hc _
    simp [countTmpl] at hc
  | case3 c2 rest ih =>
    intro v args k a hw hc hk
    rcases wfTmpl_lb hw with ⟨rfl, hwrest⟩
    rw [countTmpl_marker_cons] at hc
    have hc0 : countTmpl rest = 0 := by omega
    have hz := pyFormatCore_wf_zero rest v args (k + 1) hwrest hc0
    rw [List.cons_append, List.cons_append, pyFormatCore_field, hk]
    show (match pyFormatCore (rest ++ v) args (k + 1) with
      | Except.error e => Except.error e
      | Except.ok t => Except.ok (a ++ t)) = _
    rw [hz, subst1_marker]
    cases h : pyFormatCore v args (k + 1) <;> simp [List.append_assoc]
  | case4 c2 rest h =>
    intro v args k a hw _ _
    simp [wfTmpl] at hw
  | case5 c1 c2 rest h1 h2 ih =>
    intro v args k a hw hc hk
    have hrest : wfTmpl (c2 :: rest) = true := wfTmpl_lit h1 h2 hw
    have hcnt : countTmpl (c2 :: rest) = 1 := by
      rw [countTmpl_cons_cons_neg (fun hh => h1 hh.1)] at hc
      exact hc
    rw [List.cons_append, pyFormatCore_lit h1 h2, ih v args k a hrest hcnt hk,
      subst1_cons (fun hh => h1 hh.1) (by omega) a]
    cases h : pyFormatCore v args (k + 1) <;> simp

/-- C9 (amended).  For a two-line template whose lines each consist of
ordinary text and exactly one placeholder marker (braces occurring only as
the markers), substitution is positional: the first line's marker receives
the first argument and the second line's marker the second, each passed
through `transformArg`, for every pair of arguments. -/
theorem multipylinef_positional (ℓ1 ℓ2 x y : Str)
    (h1 : '\n' ∉ ℓ1) (h2 : '\n' ∉ ℓ2)
    (h3 : wfTmpl ℓ1 = true) (h4 : wfTmpl ℓ2 = true)
    (h5 : countTmpl ℓ1 = 1) (h6 : countTmpl ℓ2 = 1) :
    multipylinef (ℓ1 ++ '\n' :: ℓ2) [x, y]
      = .ok (multipyline
          (subst1 ℓ1 (transformArg ℓ1 x) ++ '\n' :: subst1 ℓ2 (transformArg ℓ2 y))) := by
  have hne2 : ℓ2 ≠ [] := by
    intro hh
    rw [hh] at h6
    simp [countTmpl] at h6
  have hsplit : splitNL (ℓ1 ++ '\n' :: ℓ2) = [ℓ1, ℓ2] := by
    rw [splitNL_append_nl h1, splitNL_of_noNL h2]
  have hpys : pySplitlines (ℓ1 ++ '\n' :: ℓ2) = [ℓ1, ℓ2] := by
    have hdef : pySplitlines (ℓ1 ++ '\n' :: ℓ2)
        = if (splitNL (ℓ1 ++ '\n' :: ℓ2)).getLast? = some []
          then (splitNL (ℓ1 ++ '\n' :: ℓ2)).dropLast else splitNL (ℓ1 ++ '\n' :: ℓ2) := rfl
    rw [hdef, hsplit, if_neg (by simp [hne2])]
  have hc1 : containsTmpl ℓ1 = true := (contains_iff_pos ℓ1).mpr (by omega)
  have hc2 : containsTmpl ℓ2 = true := (contains_iff_pos ℓ2).mpr (by omega)
  have hfil : ([ℓ1, ℓ2] : List Str).filter containsTmpl = [ℓ1, ℓ2] := by
    rw [List.filter_cons_of_pos hc1, List.filter_cons_of_pos hc2]
    rfl
  have hscan := scanLoop_eq [x, y] [ℓ1, ℓ2] 0 (List.replicate 2 [])
    (by
      intro l hl
      rcases List.mem_cons.mp hl with rfl | hl
      · omega
      · rcases List.mem_cons.mp hl with rfl | hl
        · omega
        · simp at hl)
    (by rw [hfil]; simp)
  rw [List.drop_zero, hfil] at hscan
  have hsf := setFrom_pad (List.zipWith transformArg [ℓ1, ℓ2] [x, y]) [] 2 (by simp)
  simp only [List.nil_append, List.length_nil] at hsf
  rw [hsf] at hscan
  have hzip : List.zipWith transformArg [ℓ1, ℓ2] [x, y]
      = [transformArg ℓ1 x, transformArg ℓ2 y] := rfl
  rw [hzip] at hscan
  simp only [List.length_cons, List.length_nil] at hscan
  have hscan' : scanLoop [x, y] (pySplitlines (ℓ1 ++ '\n' :: ℓ2)) 0
      (List.replicate ([x, y] : List Str).length [])
      = .ok [transformArg ℓ1 x, transformArg ℓ2 y] := by
    rw [hpys]
    exact hscan
  rw [multipylinef_scan_ok hscan']
  have hl2 : ∀ W : List Str, W[1]? = some (transformArg ℓ2 y) →
      pyFormatCore ℓ2 W 1 = .ok (subst1 ℓ2 (transformArg ℓ2 y)) := by
    intro W hW
    conv_lhs => rw [show ℓ2 = ℓ2 ++ ([] : Str) from (List.append_nil ℓ2).symm]
    rw [pyFormatCore_wf_one ℓ2 [] W 1 (transformArg ℓ2 y) h4 h6 hW]
    simp [pyFormatCore]
  have hfmt : pyFormat (ℓ1 ++ '\n' :: ℓ2) [transformArg ℓ1 x, transformArg ℓ2 y]
      = .ok (subst1 ℓ1 (transformArg ℓ1 x) ++ '\n' :: subst1 ℓ2 (transformArg ℓ2 y)) := by
    unfold pyFormat
    rw [pyFormatCore_wf_one ℓ1 ('\n' :: ℓ2) [transformArg ℓ1 x, transformArg ℓ2 y] 0
      (transformArg ℓ1 x) h3 h5 rfl]
    rw [pyFormatCore_lit (by decide) (by decide) ℓ2 [transformArg ℓ1 x, transformArg ℓ2 y] 1]
    rw [hl2 [transformArg ℓ1 x, transformArg ℓ2 y] rfl]
  rw [hfmt]

def l1C9 : Str := ("a\x7b\x7d").toList

def l2C9 : Str := ("  \x7b\x7d!").toList

def xC9 : Str := ("p\nq").toList

def yC9 : Str := ("single").toList

/-- Witness for the amended C9 at a concrete two-line template. -/
theorem multipylinef_positional_wit :
    ('\n' ∉ l1C9 ∧ '\n' ∉ l2C9 ∧ wfTmpl l1C9 = true ∧ wfTmpl l2C9 = true ∧
        countTmpl l1C9 = 1 ∧ countTmpl l2C9 = 1) ∧
      multipylinef (l1C9 ++ '\n' :: l2C9) [xC9, yC9]
        = .ok (multipyline
            (subst1 l1C9 (transformArg l1C9 xC9) ++ '\n' :: subst1 l2C9 (transformArg l2C9 yC9))) :=
  ⟨⟨by decide, by decide, by decide, by decide, by decide, by decide⟩,
    multipylinef_positional l1C9 l2C9 xC9 yC9 (by decide) (by decide) (by decide)
      (by decide) (by decide) (by decide)⟩

def tC9 : Str := ("\x7b \x7b\x7d\n\x7b\x7d").toList

def argsC9 : List Str := [("x").toList, ("y").toList]

/-- C9 counterexample.  A template with two placeholders on two separate
lines (one marker each) whose first line also carries a stray brace: the
call fails with `ValueError` from `str.format`, so the first placeholder is
not replaced by the first argument. -/
theorem multipylinef_positional_cex :
    (pySplitlines tC9).length = 2 ∧
      (∀ l ∈ pySplitlines tC9, countTmpl l = 1) ∧
      multipylinef tC9 argsC9 = .error .valueError := by decide

/-! ### C6: the prefix structure of indent-and-trim -/

theorem splitKeep_of_noNL {l : Str} (hne : l ≠ []) (h : '\n' ∉ l) : splitKeep l = [l] := by
  induction l with
  | nil => exact absurd rfl hne
  | cons c cs ih =>
    have hc : c ≠ '\n' := fun hh => h (by simp [hh])
    cases cs with
    | nil => simp [splitKeep, hc]
    | cons d ds =>
      have htail := ih (by simp) (fun hm => h (List.mem_cons_of_mem c hm))
      have hstep : splitKeep (c :: d :: ds)
          = match splitKeep (d :: ds) with
            | [] => [[c]]
            | l :: ls => (c :: l) :: ls := by
        simp only [splitKeep]
        rw [if_neg hc]
      rw [hstep, htail]

theorem splitKeep_append_nl {l : Str} (h : '\n' ∉ l) (w : Str) :
    splitKeep (l ++ '\n' :: w) = (l ++ ['\n']) :: splitKeep w := by
  induction l with
  | nil => simp [splitKeep]
  | cons c cs ih =>
    have hc : c ≠ '\n' := fun hh => h (by simp [hh])
    have htail := ih (fun hm => h (List.mem_cons_of_mem c hm))
    rw [List.cons_append]
    simp only [splitKeep, if_neg hc, htail]
    rfl

theorem pyIndent_joinNL (p : Str) : ∀ ls : List Str, ls ≠ [] → (∀ l ∈ ls, '\n' ∉ l) →
    ls.getLast? ≠ some [] →
    pyIndent (joinNL ls) p = joinNL (ls.map (fun l => p ++ l)) := by
  intro ls
  induction ls with
  | nil => intro h; exact absurd rfl h
  | cons l rest ih =>
    intro _ hnl hlast
    cases rest with
    | nil =>
      have hlne : l ≠ [] := by
        intro hh
        exact hlast (by rw [hh]; rfl)
      unfold pyIndent
      rw [show joinNL [l] = l from rfl, splitKeep_of_noNL hlne (hnl l (by simp))]
      simp [joinNL]
    | cons b bs =>
      rw [joinNL_cons (by simp : (b :: bs : List Str) ≠ []) l]
      unfold pyIndent
      rw [splitKeep_append_nl (hnl l (by simp))]
      rw [List.map_cons, List.flatten_cons]
      have hr := ih (by simp) (fun x hx => hnl x (List.mem_cons_of_mem l hx))
        (by rw [List.getLast?_cons_cons] at hlast; exact hlast)
      unfold pyIndent at hr
      rw [hr]
      rw [show List.map (fun x => p ++ x) (l :: b :: bs)
          = (p ++ l) :: List.map (fun x => p ++ x) (b :: bs) from rfl]
      rw [joinNL_cons (by simp : (List.map (fun x => p ++ x) (b :: bs)) ≠ []) (p ++ l)]
      simp [List.append_assoc]

theorem dropWhile_joinNL (ls : List Str) :
    (joinNL ls).dropWhile isPySpace = joinNL (stripLeadLines ls) := by
  induction ls with
  | nil => rfl
  | cons l rest ih =>
    by_cases hb : blankL l = true
    · have hall : ∀ c ∈ l, isPySpace c = true := List.all_eq_true.mp hb
      cases rest with
      | nil =>
        show l.dropWhile isPySpace = joinNL (stripLeadLines [l])
        rw [List.dropWhile_eq_nil_iff.mpr hall]
        unfold stripLeadLines
        rw [List.dropWhile_cons_of_pos hb]
        rfl
      | cons b bs =>
        rw [joinNL_cons (by simp : (b :: bs : List Str) ≠ []) l]
        rw [List.dropWhile_append_of_pos hall]
        rw [List.dropWhile_cons_of_pos nl_is_ws]
        have hsl : stripLeadLines (l :: b :: bs) = stripLeadLines (b :: bs) := by
          unfold stripLeadLines
          rw [List.dropWhile_cons_of_pos hb]
        rw [hsl, ← ih]
    · have hne : l.dropWhile isPySpace ≠ [] := by
        intro hh
        exact hb (List.all_eq_true.mpr (List.dropWhile_eq_nil_iff.mp hh))
      have hsl : stripLeadLines (l :: rest) = l.dropWhile isPySpace :: rest := by
        unfold stripLeadLines
        rw [List.dropWhile_cons_of_neg (by simp [hb])]
      rw [hsl]
      cases rest with
      | nil =>
        show l.dropWhile isPySpace = joinNL [l.dropWhile isPySpace]
        rfl
      | cons b bs =>
        rw [joinNL_cons (by simp : (b :: bs : List Str) ≠ []) l,
          joinNL_cons (by simp : (b :: bs : List Str) ≠ []) (l.dropWhile isPySpace)]
        rw [List.dropWhile_append]
        rw [if_neg (by simp [hne])]

theorem getLast?_joinNL : ∀ (ls : List Str) {lm : Str}, ls.getLast? = some lm → lm ≠ [] →
    (joinNL ls).getLast? = lm.getLast? := by
  intro ls
  induction ls with
  | nil => intro lm h _; simp at h
  | cons l rest ih =>
    intro lm h hlm
    cases rest with
    | nil =>
      simp only [List.getLast?_singleton, Option.some.injEq] at h
      subst h
      rfl
    | cons b bs =>
      rw [List.getLast?_cons_cons] at h
      have hj : (joinNL (b :: bs)).getLast? = lm.getLast? := ih h hlm
      have hlmne : lm.getLast?.isSome := List.getLast?_isSome.mpr hlm
      rw [joinNL_cons (by simp : (b :: bs : List Str) ≠ []) l]
      rw [List.getLast?_append]
      cases hjj : joinNL (b :: bs) with
      | nil =>
        rw [hjj] at hj
        rw [← hj] at hlmne
        simp at hlmne
      | cons u us =>
        rw [hjj] at hj
        rw [List.getLast?_cons_cons, hj]
        cases hlg : lm.getLast? with
        | none => rw [hlg] at hlmne; simp at hlmne
        | some c => rfl

theorem splitNL_last_line {t : Str} {c : Char} (h : t.getLast? = some c) (hc : c ≠ '\n') :
    ∃ lm, (splitNL t).getLast? = some lm ∧ lm ≠ [] ∧ lm.getLast? = some c := by
  have hrev : t.reverse.head? = some c := by rw [List.head?_reverse]; exact h
  cases hr : t.reverse with
  | nil => rw [hr] at hrev; simp at hrev
  | cons d w =>
    rw [hr, List.head?_cons, Option.some.injEq] at hrev
    subst hrev
    obtain ⟨h', rest', h1, h2⟩ := splitNL_cons_of_ne hc w
    have hrevsplit := splitNL_reverse t
    rw [hr, h2] at hrevsplit
    have hmap : (splitNL t).map List.reverse = rest'.reverse ++ [d :: h'] := by
      have h3 := congrArg List.reverse hrevsplit
      rw [List.reverse_reverse] at h3
      rw [← h3, List.reverse_cons]
    have hlast : ((splitNL t).getLast?).map List.reverse = some (d :: h') := by
      rw [← List.getLast?_map, hmap, List.getLast?_concat]
    cases hgl : (splitNL t).getLast? with
    | none => rw [hgl] at hlast; simp at hlast
    | some lm =>
      rw [hgl] at hlast
      have hlm : lm.reverse = d :: h' := by simpa using hlast
      have hlmval : lm = h'.reverse ++ [d] := by
        have h4 := congrArg List.reverse hlm
        rw [List.reverse_reverse, List.reverse_cons] at h4
        exact h4
      refine ⟨lm, rfl, ?_, ?_⟩
      · rw [hlmval]
        simp
      · rw [hlmval, List.getLast?_concat]

/-- C6 (amended).  For every string and every newline-free prefix string,
every line of `multipyline_inner s p` after the first starts with `p`; and
when `p` consists only of whitespace, the first line of the result equals
the first line of `multipyline s` (its leading prefix is removed by the
final trim). -/
theorem multipyline_inner_prefixed (s p : Str) (hp : '\n' ∉ p) :
    (∀ line ∈ (splitNL (multipyline_inner s p)).tail, p.isPrefixOf line = true) ∧
    (p.all isPySpace = true →
      (splitNL (multipyline_inner s p)).head? = (splitNL (multipyline s)).head?) := by
  by_cases ht : multipyline s = []
  · have hres : multipyline_inner s p = [] := by
      unfold multipyline_inner
      rw [ht]
      rfl
    rw [hres, ht]
    exact ⟨fun line hl => by simp [splitNL] at hl, fun _ => rfl⟩
  · cases htc : multipyline s with
    | nil => exact absurd htc ht
    | cons c0 t' =>
      have hc0 : isPySpace c0 = false := by
        apply pyStrip_head_not (dedent s)
        rw [show pyStrip (dedent s) = multipyline s from rfl, htc]
        simp
      have hc0nl : c0 ≠ '\n' := fun hh => by
        rw [hh, nl_is_ws] at hc0
        exact absurd hc0 (by simp)
      obtain ⟨h1, rest1, _, hsp2⟩ := splitNL_cons_of_ne hc0nl t'
      have hsplit : splitNL (multipyline s) = (c0 :: h1) :: rest1 := by
        rw [htc]
        exact hsp2
      have hglt : ∃ cl, (multipyline s).getLast? = some cl ∧ isPySpace cl = false := by
        cases hgl : (multipyline s).getLast? with
        | none =>
          rw [List.getLast?_eq_none_iff] at hgl
          exact absurd hgl ht
        | some cl =>
          refine ⟨cl, rfl, ?_⟩
          apply pyStrip_getLast_not (dedent s)
          rw [show pyStrip (dedent s) = multipyline s from rfl, hgl]
          simp
      rcases hglt with ⟨cl, hcl1, hcl2⟩
      have hclnl : cl ≠ '\n' := fun hh => by
        rw [hh, nl_is_ws] at hcl2
        exact absurd hcl2 (by simp)
      rcases splitNL_last_line hcl1 hclnl with ⟨lm, hlm1, hlm2, hlm3⟩
      have hnoNL : ∀ l ∈ splitNL (multipyline s), '\n' ∉ l := fun l hl => splitNL_noNL hl
      have hlastne : (splitNL (multipyline s)).getLast? ≠ some [] := by
        rw [hlm1]
        intro hh
        exact hlm2 (Option.some.inj hh)
      have hji : pyIndent (multipyline s) p
          = joinNL ((splitNL (multipyline s)).map (fun l => p ++ l)) := by
        conv_lhs => rw [← joinNL_splitNL (multipyline s)]
        exact pyIndent_joinNL p (splitNL (multipyline s)) (splitNL_ne_nil _) hnoNL hlastne
      have hxs : multipyline_inner s p
          = pyStrip (joinNL ((p ++ c0 :: h1) :: rest1.map (fun l => p ++ l))) := by
        unfold multipyline_inner
        rw [hji, hsplit]
        rfl
      have hblank : blankL (p ++ c0 :: h1) = false := by
        unfold blankL
        cases hba : (p ++ c0 :: h1).all isPySpace
        · rfl
        · have := List.all_eq_true.mp hba c0 (by simp)
          rw [hc0] at this
          exact absurd this (by simp)
      have hlead : (joinNL ((p ++ c0 :: h1) :: rest1.map (fun l => p ++ l))).dropWhile isPySpace
          = joinNL ((p.dropWhile isPySpace ++ c0 :: h1) :: rest1.map (fun l => p ++ l)) := by
        rw [dropWhile_joinNL]
        unfold stripLeadLines
        rw [List.dropWhile_cons_of_neg (by simp [hblank])]
        show joinNL ((p ++ c0 :: h1).dropWhile isPySpace :: List.map (fun l => p ++ l) rest1) = _
        rw [dropWhile_append_not (rfl : (c0 :: h1).head? = some c0) hc0 p]
      have hylast : ∃ lmy,
          ((p.dropWhile isPySpace ++ c0 :: h1) :: rest1.map (fun l => p ++ l)).getLast?
            = some lmy ∧ lmy ≠ [] ∧ lmy.getLast? = some cl := by
        cases rest1 with
        | nil =>
          have hlmeq : lm = c0 :: h1 := by
            rw [hsplit] at hlm1
            symm
            simpa using hlm1
          refine ⟨p.dropWhile isPySpace ++ c0 :: h1, by simp, by simp, ?_⟩
          rw [List.getLast?_append]
          rw [show (c0 :: h1).getLast? = some cl from by rw [← hlmeq]; exact hlm3]
          rfl
        | cons r rs =>
          have h5 : (r :: rs).getLast? = some lm := by
            rw [hsplit, List.getLast?_cons_cons] at hlm1
            exact hlm1
          refine ⟨p ++ lm, ?_, by simp [hlm2], ?_⟩
          · rw [show ((r :: rs).map (fun l => p ++ l))
              = (p ++ r) :: (rs.map (fun l => p ++ l)) from rfl]
            rw [List.getLast?_cons_cons,
              show (p ++ r) :: rs.map (fun l => p ++ l) = (r :: rs).map (fun l => p ++ l) from rfl]
            rw [List.getLast?_map, h5]
            rfl
          · rw [List.getLast?_append, hlm3]
            rfl
      rcases hylast with ⟨lmy, hy1, hy2, hy3⟩
      have htrail : dropTrail isPySpace
          (joinNL ((p.dropWhile isPySpace ++ c0 :: h1) :: rest1.map (fun l => p ++ l)))
          = joinNL ((p.dropWhile isPySpace ++ c0 :: h1) :: rest1.map (fun l => p ++ l)) := by
        apply dropTrail_eq_self
        intro c hcy
        rw [getLast?_joinNL _ hy1 hy2, hy3] at hcy
        have h6 : cl = c := by simpa using hcy
        rw [← h6]
        exact hcl2
      have hresult : multipyline_inner s p
          = joinNL ((p.dropWhile isPySpace ++ c0 :: h1) :: rest1.map (fun l => p ++ l)) := by
        rw [hxs]
        unfold pyStrip
        rw [hlead, htrail]
      have hys_noNL : ∀ l ∈ (p.dropWhile isPySpace ++ c0 :: h1) :: rest1.map (fun l => p ++ l),
          '\n' ∉ l := by
        intro l hl
        rcases List.mem_cons.mp hl with rfl | hl
        · intro hmem
          rcases List.mem_append.mp hmem with hmem | hmem
          · exact hp ((List.dropWhile_sublist isPySpace).subset hmem)
          · exact hnoNL (c0 :: h1) (by rw [hsplit]; exact List.mem_cons_self _ _) hmem
        · rcases List.mem_map.mp hl with ⟨l0, hl0, rfl⟩
          intro hmem
          rcases List.mem_append.mp hmem with hmem | hmem
          · exact hp hmem
          · exact hnoNL l0 (by rw [hsplit]; exact List.mem_cons_of_mem _ hl0) hmem
      have hsplitres : splitNL (multipyline_inner s p)
          = (p.dropWhile isPySpace ++ c0 :: h1) :: rest1.map (fun l => p ++ l) := by
        rw [hresult]
        exact splitNL_joinNL (by simp) hys_noNL
      constructor
      · intro line hline
        rw [hsplitres] at hline
        simp only [List.tail_cons] at hline
        rcases List.mem_map.mp hline with ⟨l0, _, rfl⟩
        exact List.isPrefixOf_iff_prefix.mpr ⟨l0, rfl⟩
      · intro hpws
        rw [hsplitres, hsp2]
        rw [show (p.dropWhile isPySpace) = [] from
          List.dropWhile_eq_nil_iff.mpr (List.all_eq_true.mp hpws)]
        rfl

def sC6 : Str := ("c\nd").toList

def pC6 : Str := ("x\n").toList

def line2C6 : Str := ("c").toList

/-- C6 counterexample.  With the prefix `"x\n"` (arbitrary content may
contain a newline), the second output line of `indent-and-trim("c\nd", "x\n")`
is the non-blank line `"c"`, which does not begin with the prefix. -/
theorem multipyline_inner_prefixed_cex :
    multipyline_inner sC6 pC6 = ("x\nc\nx\nd").toList ∧
      line2C6 ∈ (splitNL (multipyline_inner sC6 pC6)).tail ∧
      line2C6.all isPySpace = false ∧
      pC6.isPrefixOf line2C6 = false := by decide

def sC6w : Str := (" e\n  f\n\n g").toList

def pC6w : Str := ("   ").toList

/-- Witness for the amended C6 at a concrete input with a whitespace
prefix. -/
theorem multipyline_inner_prefixed_wit :
    '\n' ∉ pC6w ∧
      ((∀ line ∈ (splitNL (multipyline_inner sC6w pC6w)).tail,
          pC6w.isPrefixOf line = true) ∧
        (pC6w.all isPySpace = true →
          (splitNL (multipyline_inner sC6w pC6w)).head?
            = (splitNL (multipyline sC6w)).head?)) :=
  ⟨by decide, multipyline_inner_prefixed sC6w pC6w (by decide)⟩
